import Mathlib

/-!
Verification development for the string-normalization and similarity engine of
the repository (source file string_utils.py).  Strings are embedded as
List Char; every Python text transform of the source is translated into an
executable Lean function.  The regular-expression substitutions of the source
(word-boundary stopword removal, bracket removal, four-digit year removal,
punctuation removal, whitespace collapse) are modelled directly: the scanner
walks the character list left to right exactly as re.sub does, trying the
alternatives of the alternation in source order at every position and skipping
matched spans.  Unicode-dependent character classes (str.lower, regex word and
space classes, NFKD folding to ASCII) are modelled on the ASCII and Latin-1
range, which covers every character the source's own literal tables produce,
plus the letterlike-symbol block whose NFKD decompositions fold to uppercase
ASCII letters after the case-fold step already ran (the trademark sign to TM,
the numero sign to No, the degree-Fahrenheit sign to F); all concrete inputs
used in the theorems below lie in the modelled subset, where the model agrees
with Python exactly.
-/

/-- Apostrophe character, kept out of literals. -/
def apos : Char := Char.ofNat 39

/-- Python regex word-character class (backslash-w) on the ASCII and Latin-1
range: ASCII alphanumerics, underscore, and the Latin-1 letters
(ordinal indicators, micro sign, and the accented letter block minus the
multiplication and division signs).  Non-letter symbols above Latin-1, such
as the letterlike symbols of the fold table, are correctly non-word; letters
and digits above Latin-1 are outside the modelled subset. -/
def isPyWord (c : Char) : Bool :=
  let n := c.toNat
  (48 ≤ n && n ≤ 57) || (65 ≤ n && n ≤ 90) || (97 ≤ n && n ≤ 122) || n == 95 ||
  n == 170 || n == 181 || n == 186 ||
  (192 ≤ n && n ≤ 255 && n != 215 && n != 247)

/-- Python regex whitespace class (backslash-s) and str.strip whitespace:
ASCII whitespace, the C1 separators, NEL, NBSP and the common Unicode spaces. -/
def isPySpace (c : Char) : Bool :=
  let n := c.toNat
  (9 ≤ n && n ≤ 13) || (28 ≤ n && n ≤ 32) || n == 133 || n == 160 ||
  n == 5760 || (8192 ≤ n && n ≤ 8202) || n == 8232 || n == 8233 ||
  n == 8239 || n == 8287 || n == 12288

/-- Wordness of the character preceding or following a match position; the
absent character at either end of the string counts as non-word, exactly as
in Python word-boundary semantics. -/
def isWordOpt : Option Char → Bool
  | none => false
  | some c => isPyWord c

/-- Python str.lower modelled on the ASCII and Latin-1 range: maps A-Z and
the Latin-1 capital letters (except the multiplication sign) 32 code points
up.  Uncased characters above Latin-1, such as the letterlike symbols of the
fold table, are correctly left unchanged; cased letters above Latin-1 are
outside the modelled subset. -/
def lowerChar (c : Char) : Char :=
  if (65 ≤ c.toNat ∧ c.toNat ≤ 90) ∨ (192 ≤ c.toNat ∧ c.toNat ≤ 222 ∧ c.toNat ≠ 215) then
    Char.ofNat (c.toNat + 32)
  else c

/-- Python str.lower on a string. -/
def pyLower (l : List Char) : List Char := l.map lowerChar

/-- NFKD normalization followed by encode ASCII-ignore, per character,
modelled on the ASCII range, the Latin-1 range and the letterlike-symbol
block: ASCII characters pass through, decomposable Latin-1 characters fold
to their base ASCII letters or digits, letterlike symbols fold to their
ASCII compatibility letters, which are uppercase because the symbols have no
lowercase mapping and this step runs after the case-fold step; every other
non-ASCII character is dropped.  Characters above Latin-1 outside this table
whose real NFKD decomposition contains ASCII are outside the modelled
subset. -/
def nfkdPairs : List (Char × List Char) :=
  [( 'à', [ 'a']), ( 'á', [ 'a']), ( 'â', [ 'a']), ( 'ã', [ 'a']), ( 'ä', [ 'a']),
   ( 'å', [ 'a']), ( 'ª', [ 'a']), ( 'ç', [ 'c']), ( 'è', [ 'e']), ( 'é', [ 'e']),
   ( 'ê', [ 'e']), ( 'ë', [ 'e']), ( 'ì', [ 'i']), ( 'í', [ 'i']), ( 'î', [ 'i']),
   ( 'ï', [ 'i']), ( 'ñ', [ 'n']), ( 'ò', [ 'o']), ( 'ó', [ 'o']), ( 'ô', [ 'o']),
   ( 'õ', [ 'o']), ( 'ö', [ 'o']), ( 'º', [ 'o']), ( 'ù', [ 'u']), ( 'ú', [ 'u']),
   ( 'û', [ 'u']), ( 'ü', [ 'u']), ( 'ý', [ 'y']), ( 'ÿ', [ 'y']), ( '¹', [ '1']),
   ( '²', [ '2']), ( '³', [ '3']), ( '¼', [ '1', '4']), ( '½', [ '1', '2']),
   ( '¾', [ '3', '4']),
   ( '℃', [ 'C']), ( '℉', [ 'F']), ( '№', [ 'N', 'o']), ( '℠', [ 'S', 'M']),
   ( '℡', [ 'T', 'E', 'L']), ( '™', [ 'T', 'M']), ( '℻', [ 'F', 'A', 'X'])]

/-- Fold of one character: ASCII passes through, the decomposable characters
of the table fold to their ASCII compatibility characters, possibly
uppercase, every other non-ASCII character is dropped by the ASCII
encode. -/
def nfkdChar (c : Char) : List Char :=
  if c.toNat ≤ 127 then [c]
  else ((nfkdPairs.find? fun p => p.1 == c).map Prod.snd).getD []

/-- Unicode-normalization step of the pipeline:
unicodedata.normalize NFKD then encode ASCII-ignore then decode. -/
def nfkdStr (l : List Char) : List Char := (l.map nfkdChar).flatten

/-- Left part of Python str.strip: drop leading whitespace. -/
def ltrimWs : List Char → List Char
  | [] => []
  | c :: r => if isPySpace c then ltrimWs r else c :: r

/-- Right part of Python str.strip: drop trailing whitespace. -/
def rtrimWs : List Char → List Char
  | [] => []
  | c :: r =>
    let t := rtrimWs r
    if t = [] ∧ isPySpace c then [] else c :: t

/-- Python str.strip. -/
def pyStrip (l : List Char) : List Char := ltrimWs (rtrimWs l)

/-- Replacement of every maximal whitespace run by a single space, as in
re.sub of a one-or-more-whitespace pattern with a single space. -/
def subWs : List Char → List Char
  | [] => []
  | [c] => if isPySpace c then [ ' '] else [c]
  | c :: d :: r =>
    if isPySpace c then
      (if isPySpace d then subWs (d :: r) else ' ' :: subWs (d :: r))
    else c :: subWs (d :: r)

/-- Whitespace-collapse step of the pipeline: re.sub whitespace-run to a
single space, then str.strip. -/
def collapseWs (l : List Char) : List Char := pyStrip (subWs l)

/-- Python str.replace for one pattern, scanning left to right over the
original string and never rescanning emitted replacements; the fuel argument
is the length of the input, which always suffices because a match consumes at
least one character. -/
def replaceAllF (pat rep : List Char) : ℕ → List Char → List Char
  | 0, l => l
  | _ + 1, [] => []
  | f + 1, c :: r =>
    if pat.isPrefixOf (c :: r) then rep ++ replaceAllF pat rep f ((c :: r).drop pat.length)
    else c :: replaceAllF pat rep f r

/-- Python str.replace. -/
def replaceAll (pat rep l : List Char) : List Char := replaceAllF pat rep l.length l

/-- Literal-substitution step of the pipeline: the fixed chain of str.replace
calls of the source, in source order. -/
def replaceSpecifics (l : List Char) : List Char :=
  replaceAll [ 'I', ' ', 'R', 'I', 'O'] [ 'R', 'i', 'o']
    (replaceAll [ ' ', '-', ' '] [ '-']
      (replaceAll [ 'S', 'a', 'n', 's', 'i', 'r', 'o'] [ 'S', 'a', 'n', ' ', 's', 'i', 'r', 'o']
        (replaceAll [ 'U', apos] [ 'ù']
          (replaceAll [ 'O', apos] [ 'ò']
            (replaceAll [ 'I', apos] [ 'ì']
              (replaceAll [ 'E', apos] [ 'è']
                (replaceAll [ 'A', apos] [ 'à']
                  (replaceAll [ ' ', '/', ' '] [ '/']
                    (replaceAll [ '…'] [ '.', '.', '.']
                      (replaceAll [ '‐'] [ '-']
                        (replaceAll [ '·'] []
                          (replaceAll [ '×'] [ 'x']
                            (replaceAll [ '’'] [apos] l)))))))))))))

/-- Token of a stopword pattern: a literal character, or the regex dot of the
unescaped pattern e.p. which matches any character except a newline. -/
def litTok (s : String) : List (Option Char) := s.toList.map some

/-- Match one stopword alternative against a prefix of the text, returning the
last consumed character and the remaining suffix. -/
def matchPat : List (Option Char) → Option Char → List Char → Option (Option Char × List Char)
  | [], last, l => some (last, l)
  | _ :: _, _, [] => none
  | t :: p, _, c :: l =>
    match t with
    | some d => if c = d then matchPat p (some c) l else none
    | none => if c = '\n' then none else matchPat p (some c) l

/-- Word boundary after a match: exactly one of the last consumed character
and the following character is a word character (end of string is non-word). -/
def boundaryAfter (last : Option Char) (rest : List Char) : Bool :=
  isWordOpt last != isWordOpt rest.head?

/-- Try the alternatives of the stopword alternation in source order at the
current position, requiring the trailing word boundary, as Python regex
alternation with backtracking does. -/
def matchAlts : List (List (Option Char)) → List Char → Option (Option Char × List Char)
  | [], _ => none
  | p :: ps, l =>
    match matchPat p none l with
    | some (lc, rest) => if boundaryAfter lc rest then some (lc, rest) else matchAlts ps l
    | none => matchAlts ps l

/-- Scanner of re.sub for the word-boundary stopword alternation: at every
position with a leading word boundary try the alternatives in order; on a
match drop the span and continue after it, otherwise keep the character and
advance by one.  The fuel argument is the input length, which always suffices
because every pattern is nonempty. -/
def subWordsF (pats : List (List (Option Char))) : ℕ → Option Char → List Char → List Char
  | 0, _, l => l
  | _ + 1, _, [] => []
  | f + 1, prev, c :: r =>
    if isWordOpt prev != isPyWord c then
      match matchAlts pats (c :: r) with
      | some (lc, rest) => subWordsF pats f lc rest
      | none => c :: subWordsF pats f (some c) r
    else c :: subWordsF pats f (some c) r

/-- Stopword-removal step: re.sub of the word-boundary alternation with the
empty string. -/
def subWords (pats : List (List (Option Char))) (l : List Char) : List Char :=
  subWordsF pats l.length none l

/-- Stopword vocabulary of clean_string_extended, in source order. -/
def wordsExt : List (List (Option Char)) :=
  [litTok ( "remastered"), litTok ( "remaster"), litTok ( "version"), litTok ( "extended"),
   litTok ( "special"), litTok ( "edition"), litTok ( "deluxe"), litTok ( "feat"),
   litTok ( "featuring"), litTok ( "ft"), litTok ( "radio edit"), litTok ( "remix"),
   litTok ( "mix"), litTok ( "original"), litTok ( "bonus track"), litTok ( "live"),
   litTok ( "acoustic"), litTok ( "instrumental"), litTok ( "explicit"), litTok ( "clean"),
   litTok ( "album version"), litTok ( "single"), litTok ( "official"), litTok ( "bonus"),
   litTok ( "full"), litTok ( "super"), litTok ( "box"), litTok ( "stereo"),
   litTok ( "album"), litTok ( "anniversary"), litTok ( "expanded"), litTok ( "edit"),
   litTok ( "vrs"), litTok ( "192 khz"), litTok ( "mono"), litTok ( "ep"),
   [some 'e', none, some 'p', none]]

/-- Stopword vocabulary of clean_string, in source order.  The source list
lacks the comma between the adjacent string literals bonus and full and
between expanded and edit, so Python concatenates them into the single tokens
bonusfull and expandededit. -/
def wordsCS : List (List (Option Char)) :=
  [litTok ( "remastered"), litTok ( "remaster"), litTok ( "version"), litTok ( "extended"),
   litTok ( "special"), litTok ( "edition"), litTok ( "deluxe"), litTok ( "feat"),
   litTok ( "featuring"), litTok ( "ft"), litTok ( "radio edit"), litTok ( "remix"),
   litTok ( "mix"), litTok ( "original"), litTok ( "bonus track"), litTok ( "live"),
   litTok ( "acoustic"), litTok ( "instrumental"), litTok ( "explicit"), litTok ( "clean"),
   litTok ( "album version"), litTok ( "single"), litTok ( "official"),
   litTok ( "bonusfull"), litTok ( "super"), litTok ( "box"), litTok ( "stereo"),
   litTok ( "album"), litTok ( "anniversary"), litTok ( "expandededit"),
   litTok ( "vrs"), litTok ( "192 khz"), litTok ( "mono"), litTok ( "ep"),
   [some 'e', none, some 'p', none]]

/-- Year-removal step: re.sub of the word-bounded pattern of a 19 or 20
prefix followed by two digits.  The scan keeps the previous original
character to evaluate the leading word boundary. -/
def rmYearsF : Option Char → List Char → List Char
  | _, [] => []
  | _, [a] => [a]
  | _, [a, b] => [a, b]
  | _, [a, b, c] => [a, b, c]
  | prev, a :: b :: c :: d :: rest =>
    if (!isWordOpt prev) && ((a == '1' && b == '9') || (a == '2' && b == '0')) &&
       c.isDigit && d.isDigit && (!isWordOpt rest.head?) then
      rmYearsF (some d) rest
    else a :: rmYearsF (some a) (b :: c :: d :: rest)

/-- Year removal from the start of the string. -/
def rmYears (l : List Char) : List Char := rmYearsF none l

/-- Position of the first closing delimiter: the remainder after it, if any. -/
def splitAtClose (close : Char) : List Char → Option (List Char)
  | [] => none
  | c :: r => if c = close then some r else splitAtClose close r

/-- Bracket-pair removal of clean_string: re.sub of an opening delimiter, a
run of non-closing characters, and the closing delimiter, with the empty
string; an unmatched opening delimiter is kept.  The fuel argument is the
input length. -/
def removeDelimF (op cl : Char) : ℕ → List Char → List Char
  | 0, l => l
  | _ + 1, [] => []
  | f + 1, c :: r =>
    if c = op then
      match splitAtClose cl r with
      | some r2 => removeDelimF op cl f r2
      | none => c :: removeDelimF op cl f r
    else c :: removeDelimF op cl f r

/-- Bracket-pair removal entry point. -/
def removeDelim (op cl : Char) (l : List Char) : List Char := removeDelimF op cl l.length l

/-- Bracket-character removal of clean_string_extended: re.sub of the class
of the four bracket delimiters with the empty string. -/
def removeBracketChars (l : List Char) : List Char :=
  l.filter fun c => !(c == '(' || c == ')' || c == '[' || c == ']')

/-- Punctuation-removal step: re.sub of the class of characters that are
neither word characters nor whitespace, with the empty string. -/
def removePunct (l : List Char) : List Char :=
  l.filter fun c => isPyWord c || isPySpace c

/-- Function clean_string of the source: literal substitutions, strip and
lower (applied twice in the source), stopword removal with the fused
vocabulary, removal of parenthesized and bracketed spans, year removal,
unicode folding, punctuation removal and whitespace collapse. -/
def clean_string (text : List Char) : List Char :=
  collapseWs
    (removePunct
      (nfkdStr
        (rmYears
          (removeDelim '[' ']'
            (removeDelim '(' ')'
              (subWords wordsCS
                (pyLower (pyLower (pyStrip (replaceSpecifics text))))))))))

/-- Record of one tracked normalization step, as built by the track closure of
clean_string_extended. -/
structure StepRecord where
  step : String
  changed : Bool
  before : List Char
  after : List Char
deriving DecidableEq

/-- Default ignore list of clean_string_extended: the cosmetic steps whose
changes are excluded from the change tally. -/
def defaultIgnore : List String :=
  [ "replace specifics char", "strip", "lower", "normalize unicode", "remove multiple spaces"]

/-- Named steps of clean_string_extended, in source order. -/
def stepListExt : List (String × (List Char → List Char)) :=
  [( "replace specifics char", replaceSpecifics),
   ( "strip", pyStrip),
   ( "lower", pyLower),
   ( "remove words_to_remove", subWords wordsExt),
   ( "remove brackets only", removeBracketChars),
   ( "remove years", rmYears),
   ( "normalize unicode", nfkdStr),
   ( "remove punctuation", removePunct),
   ( "remove multiple spaces", collapseWs)]

/-- Runner of the track closure: applies each step in order, appending a
StepRecord per step and recording the changed flag in the tally when the step
name is in the debug list, or otherwise when it is not in the ignore list. -/
def runTrack (ignore debug : List String) :
    List (String × (List Char → List Char)) →
    List Char × List (String × Bool) × List StepRecord →
    List Char × List (String × Bool) × List StepRecord
  | [], st => st
  | (name, f) :: rest, (text, tally, rep) =>
    let t2 := f text
    let changed : Bool := decide (¬ text = t2)
    let tally2 :=
      if name ∈ debug then tally ++ [(name, changed)]
      else if name ∉ ignore then tally ++ [(name, changed)]
      else tally
    runTrack ignore debug rest (t2, tally2, rep ++ [⟨name, changed, text, t2⟩])

/-- Function clean_string_extended of the source: runs the tracked pipeline
and returns the cleaned string, the change tally and the step report; absent
optional arguments take the source defaults. -/
def clean_string_extended (text : List Char)
    (ignore_debug_steps debug_steps : Option (List String)) :
    List Char × List (String × Bool) × List StepRecord :=
  runTrack (ignore_debug_steps.getD defaultIgnore) (debug_steps.getD []) stepListExt (text, [], [])

/-- Canonical output of clean_string_extended under the default configuration. -/
def canonExt (text : List Char) : List Char :=
  (clean_string_extended text none none).1

/-- Count of changed steps in a tally: Python sums the boolean dict values. -/
def countChanged (tally : List (String × Bool)) : ℕ :=
  (tally.filter fun p => p.2).length

/-- Penalty of are_strings_similar: one hundredth per changed tallied step of
either normalization, as computed on source lines 79-81. -/
def penality (s1 s2 : List Char) : ℚ :=
  (1 / 100) * (countChanged (clean_string_extended s1 none none).2.1 : ℚ) +
  (1 / 100) * (countChanged (clean_string_extended s2 none none).2.1 : ℚ)

/-- Common prefix length of two character lists. -/
def cpl : List Char → List Char → ℕ
  | a :: as, b :: bs => if a = b then cpl as bs + 1 else 0
  | _, _ => 0

/-- Step of the longest-match search: replace the best triple only on a
strictly longer match, so the earliest maximal match in scan order is kept. -/
def flmStep (a b : List Char) (best : ℕ × ℕ × ℕ) (ij : ℕ × ℕ) : ℕ × ℕ × ℕ :=
  if best.2.2 < cpl (a.drop ij.1) (b.drop ij.2) then
    (ij.1, ij.2, cpl (a.drop ij.1) (b.drop ij.2))
  else best

/-- Modelled from the spec: the longest-common-contiguous-block search of the
Ratcliff-Obershelp sequence ratio (difflib SequenceMatcher find_longest_match,
which is not part of this repository).  Among the longest matching blocks the
one starting earliest in the first string, then earliest in the second, wins. -/
def flm (a b : List Char) : ℕ × ℕ × ℕ :=
  (((List.range a.length).map
      (fun i => (List.range b.length).map fun j => (i, j))).flatten).foldl
    (flmStep a b) (0, 0, 0)

/-- Modelled from the spec: recursive match count of the Ratcliff-Obershelp
sequence ratio, recursing on the pieces left and right of the longest match.
The fuel argument is the sum of the lengths, which always suffices because a
nonempty match splits off strictly smaller pieces. -/
def matchesF : ℕ → List Char → List Char → ℕ
  | 0, _, _ => 0
  | f + 1, a, b =>
    if (flm a b).2.2 = 0 then 0
    else
      (flm a b).2.2 + matchesF f (a.take (flm a b).1) (b.take (flm a b).2.1) +
        matchesF f (a.drop ((flm a b).1 + (flm a b).2.2))
          (b.drop ((flm a b).2.1 + (flm a b).2.2))

/-- Total matched characters of the sequence-ratio recursion. -/
def matchesCount (a b : List Char) : ℕ := matchesF (a.length + b.length) a b

/-- Modelled from the spec: the sequence ratio, twice the matched characters
over the total length (one when both strings are empty, as in difflib). -/
def sequenceRatioVal (a b : List Char) : ℚ :=
  if a.length + b.length = 0 then 1
  else 2 * (matchesCount a b : ℚ) / ((a.length + b.length : ℕ) : ℚ)

/-- Modelled from the spec: Levenshtein distance by the textbook recursion.
The fuel argument is the sum of the lengths, which always suffices; the
out-of-fuel fallback returns the maximum of the lengths, an upper bound of
the distance, and is unreachable from the entry point. -/
def levF : ℕ → List Char → List Char → ℕ
  | _, [], ys => ys.length
  | _, x :: xs, [] => (x :: xs).length
  | 0, xs, ys => max xs.length ys.length
  | f + 1, x :: xs, y :: ys =>
    if x = y then levF f xs ys
    else 1 + min (levF f xs ys) (min (levF f (x :: xs) ys) (levF f xs (y :: ys)))

/-- Levenshtein distance. -/
def levDist (a b : List Char) : ℕ := levF (a.length + b.length) a b

/-- Modelled from the spec: normalized edit-distance similarity, one minus the
Levenshtein distance over the maximum length (one for two empty strings). -/
def levRatioVal (a b : List Char) : ℚ :=
  if max a.length b.length = 0 then 1
  else 1 - (levDist a b : ℚ) / ((max a.length b.length : ℕ) : ℚ)

/-- Whitespace tokenization as in Python str.split with no argument. -/
def wordsOfAux : List Char → List (List Char)
  | [] => []
  | c :: r =>
    if isPySpace c then [] :: wordsOfAux r
    else
      match wordsOfAux r with
      | [] => [[c]]
      | w :: ws => (c :: w) :: ws

/-- Whitespace tokenization, dropping empty tokens. -/
def wordsOf (l : List Char) : List (List Char) := (wordsOfAux l).filter fun w => w ≠ []

/-- Lexicographic comparison of character lists by code point, as Python
sorted uses on strings. -/
def lexLe : List Char → List Char → Bool
  | [], _ => true
  | _ :: _, [] => false
  | a :: as, b :: bs => if a = b then lexLe as bs else decide (a.toNat < b.toNat)

/-- Stable insertion of a token into a sorted token list. -/
def insertTok (x : List Char) : List (List Char) → List (List Char)
  | [] => [x]
  | y :: ys => if lexLe x y then x :: y :: ys else y :: insertTok x ys

/-- Stable insertion sort of the token list. -/
def sortToks : List (List Char) → List (List Char)
  | [] => []
  | x :: xs => insertTok x (sortToks xs)

/-- Rejoining of tokens with single spaces. -/
def joinSp : List (List Char) → List Char
  | [] => []
  | [w] => w
  | w :: ws => w ++ ' ' :: joinSp ws

/-- Modelled from the spec: the token-sort ratio, the normalized
edit-distance similarity of the two strings after sorting their whitespace
tokens lexicographically and rejoining with single spaces (fuzzywuzzy
token_sort_ratio, which is not part of this repository). -/
def tokenSortRatioVal (a b : List Char) : ℚ :=
  levRatioVal (joinSp (sortToks (wordsOf a))) (joinSp (sortToks (wordsOf b)))

/-- Windows of the given length of a string, in order. -/
def windowsOf (n : ℕ) (l : List Char) : List (List Char) :=
  (List.range (l.length + 1 - n)).map fun i => (l.drop i).take n

/-- Modelled from the spec: the best-window alignment ratio (fuzzywuzzy
partial_ratio, which is not part of this repository): the maximum normalized
edit-distance similarity of the shorter string against every window of its
length in the longer string. -/
def windowAlignRatioVal (a b : List Char) : ℚ :=
  if a.length ≤ b.length then ((windowsOf a.length b).map (levRatioVal a)).foldl max 0
  else ((windowsOf b.length a).map (levRatioVal b)).foldl max 0

/-- Combined score of are_strings_similar: the mean of the three metrics over
the two canonical strings (source line 104). -/
def similarityScore (c1 c2 : List Char) : ℚ :=
  (sequenceRatioVal c1 c2 + tokenSortRatioVal c1 c2 + windowAlignRatioVal c1 c2) / 3

/-- Function are_strings_similar of the source: fast path on equal raw
strings, normalization of both inputs, penalty from the change tallies,
fast path on equal canonical forms, otherwise the mean of the three metrics
minus the penalty, compared with the threshold; the returned score is
clamped below at zero. -/
def are_strings_similar (s1 s2 : List Char) (threshold : ℚ) : Bool × ℚ :=
  if s1 = s2 then (true, 1)
  else
    if (clean_string_extended s1 none none).1 = (clean_string_extended s2 none none).1 then
      (true, max 0 (1 - penality s1 s2))
    else
      (decide (threshold ≤
        similarityScore (clean_string_extended s1 none none).1
          (clean_string_extended s2 none none).1 - penality s1 s2),
       max 0 (similarityScore (clean_string_extended s1 none none).1
          (clean_string_extended s2 none none).1 - penality s1 s2))

/-- Absence of two adjacent spaces. -/
def noDbl : List Char → Bool
  | a :: b :: r => !(a == ' ' && b == ' ') && noDbl (b :: r)
  | _ => true

/-- Lowercase ASCII word character: a lowercase letter, a digit or an
underscore. -/
def lowerWordChar (c : Char) : Bool :=
  let n := c.toNat
  (97 ≤ n && n ≤ 122) || (48 ≤ n && n ≤ 57) || n == 95

/-- Shape of a canonical string as claimed: only lowercase ASCII word
characters and single spaces, with no leading or trailing whitespace. -/
def CanonicalShape (l : List Char) : Prop :=
  (∀ c ∈ l, c = ' ' ∨ lowerWordChar c = true) ∧ noDbl l = true ∧
  l.head? ≠ some ' ' ∧ l.getLast? ≠ some ' '

/-- ASCII word character of either case: a letter, a digit or an
underscore. -/
def asciiWordChar (c : Char) : Bool :=
  let n := c.toNat
  (48 ≤ n && n ≤ 57) || (65 ≤ n && n ≤ 90) || (97 ≤ n && n ≤ 122) || n == 95

/-- Shape the pipelines actually guarantee: only ASCII word characters, of
either case, and single spaces, with no leading or trailing whitespace. -/
def CanonicalShapeAscii (l : List Char) : Prop :=
  (∀ c ∈ l, c = ' ' ∨ asciiWordChar c = true) ∧ noDbl l = true ∧
  l.head? ≠ some ' ' ∧ l.getLast? ≠ some ' '

/-- Composition of the step functions of a step list, ignoring tracking. -/
def applyAll : List (String × (List Char → List Char)) → List Char → List Char
  | [], t => t
  | (_, f) :: rest, t => applyAll rest (f t)

/-- Value of Char.ofNat on the code points used by the lowercase table. -/
theorem char_toNat_ofNat (n : ℕ) (h : n ≤ 300) : (Char.ofNat n).toNat = n := by
  unfold Char.ofNat
  rw [dif_pos (Or.inl (by omega : n < 55296))]
  simp only [Char.ofNatAux, Char.toNat]
  simp [UInt32.toNat, UInt32.ofNat', Fin.ofNat']

/-- Characterization of lowerChar by code points. -/
theorem lowerChar_toNat (c : Char) :
    (lowerChar c = c ∧
      ¬((65 ≤ c.toNat ∧ c.toNat ≤ 90) ∨ (192 ≤ c.toNat ∧ c.toNat ≤ 222 ∧ c.toNat ≠ 215))) ∨
    ((lowerChar c).toNat = c.toNat + 32 ∧
      ((65 ≤ c.toNat ∧ c.toNat ≤ 90) ∨ (192 ≤ c.toNat ∧ c.toNat ≤ 222 ∧ c.toNat ≠ 215))) := by
  unfold lowerChar
  split_ifs with h
  · exact Or.inr ⟨char_toNat_ofNat _ (by omega), h⟩
  · exact Or.inl ⟨rfl, h⟩

/-- Identity of lowerChar outside the capital ranges. -/
theorem lowerChar_eq_self (c : Char)
    (h : ¬((65 ≤ c.toNat ∧ c.toNat ≤ 90) ∨ (192 ≤ c.toNat ∧ c.toNat ≤ 222 ∧ c.toNat ≠ 215))) :
    lowerChar c = c := by
  unfold lowerChar
  rw [if_neg h]

/-- Output of lowerChar is never an ASCII capital letter. -/
theorem lowerChar_not_upper (c : Char) :
    ¬(65 ≤ (lowerChar c).toNat ∧ (lowerChar c).toNat ≤ 90) := by
  rcases lowerChar_toNat c with ⟨h1, h2⟩ | ⟨h1, h2⟩
  · rw [h1]; omega
  · omega

/-- Idempotence of lowerChar. -/
theorem lowerChar_idem (c : Char) : lowerChar (lowerChar c) = lowerChar c := by
  rcases lowerChar_toNat c with ⟨h1, _⟩ | ⟨h1, h2⟩
  · rw [h1]; exact h1
  · exact lowerChar_eq_self _ (by omega)

/-- Output of lowerChar is the input or lies at code point at least 97. -/
theorem lowerChar_cases (c : Char) :
    lowerChar c = c ∨ 97 ≤ (lowerChar c).toNat := by
  rcases lowerChar_toNat c with ⟨h1, _⟩ | ⟨h1, h2⟩
  · exact Or.inl h1
  · exact Or.inr (by omega)

/-- Bool-level characterization of lowerWordChar. -/
theorem lowerWordChar_iff (c : Char) :
    lowerWordChar c = true ↔
      (97 ≤ c.toNat ∧ c.toNat ≤ 122) ∨ (48 ≤ c.toNat ∧ c.toNat ≤ 57) ∨ c.toNat = 95 := by
  simp [lowerWordChar]
  omega

/-- Bool-level characterization of asciiWordChar. -/
theorem asciiWordChar_iff (c : Char) :
    asciiWordChar c = true ↔
      (48 ≤ c.toNat ∧ c.toNat ≤ 57) ∨ (65 ≤ c.toNat ∧ c.toNat ≤ 90) ∨
      (97 ≤ c.toNat ∧ c.toNat ≤ 122) ∨ c.toNat = 95 := by
  simp [asciiWordChar]
  omega

/-- Bool-level characterization of isPyWord. -/
theorem isPyWord_iff (c : Char) :
    isPyWord c = true ↔
      (48 ≤ c.toNat ∧ c.toNat ≤ 57) ∨ (65 ≤ c.toNat ∧ c.toNat ≤ 90) ∨
      (97 ≤ c.toNat ∧ c.toNat ≤ 122) ∨ c.toNat = 95 ∨ c.toNat = 170 ∨ c.toNat = 181 ∨
      c.toNat = 186 ∨ (192 ≤ c.toNat ∧ c.toNat ≤ 255 ∧ c.toNat ≠ 215 ∧ c.toNat ≠ 247) := by
  simp [isPyWord]
  omega

/-- Bool-level characterization of isPySpace. -/
theorem isPySpace_iff (c : Char) :
    isPySpace c = true ↔
      (9 ≤ c.toNat ∧ c.toNat ≤ 13) ∨ (28 ≤ c.toNat ∧ c.toNat ≤ 32) ∨ c.toNat = 133 ∨
      c.toNat = 160 ∨ c.toNat = 5760 ∨ (8192 ≤ c.toNat ∧ c.toNat ≤ 8202) ∨
      c.toNat = 8232 ∨ c.toNat = 8233 ∨ c.toNat = 8239 ∨ c.toNat = 8287 ∨
      c.toNat = 12288 := by
  simp [isPySpace]
  omega

/-- Space is the only whitespace character in the canonical charset. -/
theorem canonChar_space (c : Char) (h : c = ' ' ∨ lowerWordChar c = true) :
    isPySpace c = (c == ' ') := by
  rcases h with h | h
  · subst h; decide
  · rw [lowerWordChar_iff] at h
    have h2 : ¬ isPySpace c = true := by
      rw [isPySpace_iff]; omega
    have h3 : ¬ c = ' ' := by
      intro hc; subst hc; revert h; decide
    simp [h2, h3]

/-- Result of ltrimWs is a suffix of the input. -/
theorem ltrimWs_suffix (l : List Char) : ltrimWs l <:+ l := by
  induction l with
  | nil => exact List.suffix_refl _
  | cons c r ih =>
    unfold ltrimWs
    split_ifs with h
    · exact ih.trans (List.suffix_cons c r)
    · exact List.suffix_refl _

/-- Characters of rtrimWs come from the input. -/
theorem rtrimWs_mem {c : Char} {l : List Char} (h : c ∈ rtrimWs l) : c ∈ l := by
  induction l with
  | nil => simp [rtrimWs] at h
  | cons a r ih =>
    simp only [rtrimWs] at h
    split_ifs at h with hx
    · simp at h
    · rcases List.mem_cons.mp h with h | h
      · exact h ▸ List.mem_cons_self a r
      · exact List.mem_cons_of_mem a (ih h)

/-- Characters of subWs are spaces or non-whitespace input characters. -/
theorem subWs_mem {c : Char} {l : List Char} (h : c ∈ subWs l) :
    c = ' ' ∨ (c ∈ l ∧ isPySpace c = false) := by
  induction l with
  | nil => simp [subWs] at h
  | cons a r ih =>
    cases r with
    | nil =>
      simp only [subWs] at h
      split_ifs at h with hx
      · simp at h
        exact Or.inl h
      · simp at h
        subst h
        exact Or.inr ⟨List.mem_cons_self _ _, by simp [hx]⟩
    | cons d r2 =>
      simp only [subWs] at h
      split_ifs at h with h1 h2
      · rcases ih h with h | ⟨h3, h4⟩
        · exact Or.inl h
        · exact Or.inr ⟨List.mem_cons_of_mem a h3, h4⟩
      · rcases List.mem_cons.mp h with h | h
        · exact Or.inl h
        · rcases ih h with h | ⟨h3, h4⟩
          · exact Or.inl h
          · exact Or.inr ⟨List.mem_cons_of_mem a h3, h4⟩
      · rcases List.mem_cons.mp h with h | h
        · subst h
          exact Or.inr ⟨List.mem_cons_self _ _, by simp [h1]⟩
        · rcases ih h with h | ⟨h3, h4⟩
          · exact Or.inl h
          · exact Or.inr ⟨List.mem_cons_of_mem a h3, h4⟩

/-- Characters of pyStrip come from the input. -/
theorem pyStrip_mem {c : Char} {l : List Char} (h : c ∈ pyStrip l) : c ∈ l :=
  rtrimWs_mem ((ltrimWs_suffix (rtrimWs l)).subset h)

/-- Characters of collapseWs are spaces or non-whitespace input characters. -/
theorem collapseWs_mem {c : Char} {l : List Char} (h : c ∈ collapseWs l) :
    c = ' ' ∨ (c ∈ l ∧ isPySpace c = false) :=
  subWs_mem (pyStrip_mem h)

/-- Characters of replaceAllF come from the input or the replacement. -/
theorem replaceAllF_mem {pat rep : List Char} {c : Char} :
    ∀ {f : ℕ} {l : List Char}, c ∈ replaceAllF pat rep f l → c ∈ l ∨ c ∈ rep := by
  intro f
  induction f with
  | zero => intro l h; exact Or.inl h
  | succ f ih =>
    intro l h
    cases l with
    | nil => simp [replaceAllF] at h
    | cons a r =>
      unfold replaceAllF at h
      split_ifs at h with hx
      · rcases List.mem_append.mp h with h | h
        · exact Or.inr h
        · rcases ih h with h | h
          · exact Or.inl (List.drop_subset _ _ h)
          · exact Or.inr h
      · rcases List.mem_cons.mp h with h | h
        · exact Or.inl (h ▸ List.mem_cons_self a r)
        · rcases ih h with h | h
          · exact Or.inl (List.mem_cons_of_mem a h)
          · exact Or.inr h

/-- Suffix property of matchPat. -/
theorem matchPat_suffix {p : List (Option Char)} :
    ∀ {last : Option Char} {l : List Char} {lc : Option Char} {rest : List Char},
      matchPat p last l = some (lc, rest) → rest <:+ l := by
  induction p with
  | nil =>
    intro last l lc rest h
    simp [matchPat] at h
    exact h.2 ▸ List.suffix_refl _
  | cons t p ih =>
    intro last l lc rest h
    cases l with
    | nil => simp [matchPat] at h
    | cons c l2 =>
      cases t with
      | some d =>
        simp only [matchPat] at h
        split_ifs at h with hx
        exact (ih h).trans (List.suffix_cons c l2)
      | none =>
        simp only [matchPat] at h
        split_ifs at h with hx
        exact (ih h).trans (List.suffix_cons c l2)

/-- Suffix property of matchAlts. -/
theorem matchAlts_suffix {l : List Char} {lc : Option Char} {rest : List Char} :
    ∀ {pats : List (List (Option Char))},
      matchAlts pats l = some (lc, rest) → rest <:+ l := by
  intro pats
  induction pats with
  | nil => intro h; simp [matchAlts] at h
  | cons p ps ih =>
    intro h
    unfold matchAlts at h
    split at h
    · split_ifs at h with hb
      · rename_i lc2 rest2 hm
        simp only [Option.some.injEq, Prod.mk.injEq] at h
        exact h.2 ▸ matchPat_suffix hm
      · exact ih h
    · exact ih h

/-- Characters of subWordsF come from the input. -/
theorem subWordsF_mem {pats : List (List (Option Char))} {c : Char} :
    ∀ {f : ℕ} {prev : Option Char} {l : List Char}, c ∈ subWordsF pats f prev l → c ∈ l := by
  intro f
  induction f with
  | zero => intro prev l h; exact h
  | succ f ih =>
    intro prev l h
    cases l with
    | nil => simp [subWordsF] at h
    | cons a r =>
      unfold subWordsF at h
      split_ifs at h with hb
      · split at h
        · rename_i lc rest hm
          exact (matchAlts_suffix hm).subset (ih h)
        · rcases List.mem_cons.mp h with h | h
          · exact h ▸ List.mem_cons_self a r
          · exact List.mem_cons_of_mem a (ih h)
      · rcases List.mem_cons.mp h with h | h
        · exact h ▸ List.mem_cons_self a r
        · exact List.mem_cons_of_mem a (ih h)

/-- Characters of rmYearsF come from the input. -/
theorem rmYearsF_mem {c : Char} {prev : Option Char} {l : List Char}
    (h : c ∈ rmYearsF prev l) : c ∈ l := by
  induction prev, l using rmYearsF.induct with
  | case1 prev => simp [rmYearsF] at h
  | case2 prev a => exact h
  | case3 prev a b => exact h
  | case4 prev a b d => exact h
  | case5 prev a b d e rest hx ih =>
    rw [rmYearsF, if_pos hx] at h
    have := ih h
    simp [this]
  | case6 prev a b d e rest hx ih =>
    rw [rmYearsF, if_neg hx] at h
    rcases List.mem_cons.mp h with h | h
    · simp [h]
    · exact List.mem_cons_of_mem a (ih h)

/-- Suffix property of splitAtClose. -/
theorem splitAtClose_suffix {cl : Char} :
    ∀ {l r : List Char}, splitAtClose cl l = some r → r <:+ l := by
  intro l
  induction l with
  | nil => intro r h; simp [splitAtClose] at h
  | cons a l2 ih =>
    intro r h
    unfold splitAtClose at h
    split_ifs at h with hx
    · simp at h
      exact h ▸ List.suffix_cons a l2
    · exact (ih h).trans (List.suffix_cons a l2)

/-- Characters of removeDelimF come from the input. -/
theorem removeDelimF_mem {op cl : Char} {c : Char} :
    ∀ {f : ℕ} {l : List Char}, c ∈ removeDelimF op cl f l → c ∈ l := by
  intro f
  induction f with
  | zero => intro l h; exact h
  | succ f ih =>
    intro l h
    cases l with
    | nil => simp [removeDelimF] at h
    | cons a r =>
      unfold removeDelimF at h
      split_ifs at h with hx
      · split at h
        · rename_i r2 hs
          exact List.mem_cons_of_mem a ((splitAtClose_suffix hs).subset (ih h))
        · rcases List.mem_cons.mp h with h | h
          · exact h ▸ List.mem_cons_self a r
          · exact List.mem_cons_of_mem a (ih h)
      · rcases List.mem_cons.mp h with h | h
        · exact h ▸ List.mem_cons_self a r
        · exact List.mem_cons_of_mem a (ih h)

/-- Characters of removeBracketChars come from the input. -/
theorem removeBracketChars_mem {c : Char} {l : List Char} (h : c ∈ removeBracketChars l) :
    c ∈ l :=
  (List.mem_filter.mp h).1

/-- Characters of removePunct come from the input and are word or space. -/
theorem removePunct_mem {c : Char} {l : List Char} (h : c ∈ removePunct l) :
    c ∈ l ∧ (isPyWord c || isPySpace c) = true :=
  ⟨(List.mem_filter.mp h).1, (List.mem_filter.mp h).2⟩

/-- Characters of nfkdStr come from the per-character folds. -/
theorem nfkdStr_mem {c : Char} {l : List Char} (h : c ∈ nfkdStr l) :
    ∃ d ∈ l, c ∈ nfkdChar d := by
  unfold nfkdStr at h
  rw [List.mem_flatten] at h
  rcases h with ⟨w, hw, hc⟩
  rw [List.mem_map] at hw
  rcases hw with ⟨d, hd, rfl⟩
  exact ⟨d, hd, hc⟩

/-- Outputs of nfkdChar are ASCII: the ASCII input itself, or an ASCII
character of the fold table. -/
theorem nfkdChar_ascii {c d : Char} (h : d ∈ nfkdChar c) : d.toNat ≤ 127 := by
  unfold nfkdChar at h
  split_ifs at h with h1
  · have hdc : d = c := by simpa using h
    rw [hdc]
    exact h1
  · cases hf : nfkdPairs.find? fun p => p.1 == c with
    | none => rw [hf] at h; simp at h
    | some p =>
      rw [hf] at h
      simp at h
      have hp : p ∈ nfkdPairs := List.mem_of_find?_eq_some hf
      have hall : ∀ q ∈ nfkdPairs, ∀ e ∈ q.2, e.toNat ≤ 127 := by decide
      exact hall p hp d h

/-- Cons characterization of noDbl. -/
theorem noDbl_cons {x : Char} {l : List Char} :
    noDbl (x :: l) = true ↔
      noDbl l = true ∧ ∀ y, l.head? = some y → ¬(x = ' ' ∧ y = ' ') := by
  cases l with
  | nil => simp [noDbl]
  | cons y r =>
    simp only [noDbl, Bool.and_eq_true, Bool.not_eq_true']
    constructor
    · rintro ⟨h1, h2⟩
      refine ⟨h2, ?_⟩
      intro z hz
      simp at hz
      subst hz
      rintro ⟨rfl, rfl⟩
      simp at h1
    · rintro ⟨h1, h2⟩
      refine ⟨?_, h1⟩
      have := h2 y rfl
      by_contra hx
      simp only [Bool.not_eq_false] at hx
      simp at hx
      exact this ⟨hx.1, hx.2⟩

/-- Head of subWs on a string with a non-whitespace head. -/
theorem subWs_head {d : Char} {r : List Char} (hd : isPySpace d = false) :
    (subWs (d :: r)).head? = some d := by
  cases r with
  | nil => simp [subWs, hd]
  | cons e r2 => simp [subWs, hd]

/-- Output of subWs has no two adjacent spaces. -/
theorem subWs_noDbl (l : List Char) : noDbl (subWs l) = true := by
  induction l with
  | nil => simp [subWs, noDbl]
  | cons a r ih =>
    cases r with
    | nil =>
      unfold subWs
      split_ifs <;> simp [noDbl]
    | cons d r2 =>
      unfold subWs
      split_ifs with h1 h2
      · exact ih
      · rw [noDbl_cons]
        refine ⟨ih, ?_⟩
        intro y hy hcon
        rw [subWs_head (by simpa using h2)] at hy
        apply h2
        have hdy : d = y := by simpa using hy
        rw [hdy, hcon.2]
        decide
      · rw [noDbl_cons]
        refine ⟨ih, ?_⟩
        intro y hy hcon
        apply h1
        rw [hcon.1]
        decide

/-- Head of rtrimWs comes from the head of the input. -/
theorem rtrimWs_head {l : List Char} {c : Char} (h : (rtrimWs l).head? = some c) :
    l.head? = some c := by
  cases l with
  | nil => simp [rtrimWs] at h
  | cons a r =>
    simp only [rtrimWs] at h
    split_ifs at h with hx
    · simp at h
    · simpa using h

/-- Last character of rtrimWs is not whitespace. -/
theorem rtrimWs_last {l : List Char} {c : Char} (h : (rtrimWs l).getLast? = some c) :
    isPySpace c = false := by
  induction l with
  | nil => simp [rtrimWs] at h
  | cons a r ih =>
    simp only [rtrimWs] at h
    split_ifs at h with hx
    · simp at h
    · rcases hr : rtrimWs r with _ | ⟨b, t⟩
      · rw [hr] at h
        simp at h
        subst h
        rw [hr] at hx
        simp at hx
        exact hx
      · rw [hr] at h
        rw [List.getLast?_cons_cons] at h
        rw [hr] at ih
        exact ih h

/-- Output of rtrimWs keeps the no-adjacent-spaces property. -/
theorem rtrimWs_noDbl {l : List Char} (h : noDbl l = true) : noDbl (rtrimWs l) = true := by
  induction l with
  | nil => simp [rtrimWs, noDbl]
  | cons a r ih =>
    simp only [rtrimWs]
    split_ifs with hx
    · simp [noDbl]
    · rw [noDbl_cons] at h
      rw [noDbl_cons]
      refine ⟨ih h.1, ?_⟩
      intro y hy
      exact h.2 y (rtrimWs_head hy)

/-- Head of ltrimWs is not whitespace. -/
theorem ltrimWs_head {l : List Char} {c : Char} (h : (ltrimWs l).head? = some c) :
    isPySpace c = false := by
  induction l with
  | nil => simp [ltrimWs] at h
  | cons a r ih =>
    simp only [ltrimWs] at h
    split_ifs at h with hx
    · exact ih h
    · simp at h
      subst h
      simpa using hx

/-- Last character of a nonempty ltrimWs output is the last of the input. -/
theorem ltrimWs_getLast {l : List Char} (h : ltrimWs l ≠ []) :
    (ltrimWs l).getLast? = l.getLast? := by
  induction l with
  | nil => rfl
  | cons a r ih =>
    simp only [ltrimWs] at h
    simp only [ltrimWs]
    split_ifs with hx
    · rw [if_pos hx] at h
      rw [ih h]
      rcases hr : r with _ | ⟨b, t⟩
      · rw [hr] at h
        simp [ltrimWs] at h
      · exact (List.getLast?_cons_cons).symm
    · rfl

/-- Output of ltrimWs keeps the no-adjacent-spaces property. -/
theorem ltrimWs_noDbl {l : List Char} (h : noDbl l = true) : noDbl (ltrimWs l) = true := by
  induction l with
  | nil => simpa [ltrimWs] using h
  | cons a r ih =>
    simp only [ltrimWs]
    split_ifs with hx
    · exact ih (noDbl_cons.mp h).1
    · exact h

/-- Shape of the whitespace-collapse output: no double spaces and no leading
or trailing whitespace. -/
theorem collapseWs_shape (l : List Char) :
    noDbl (collapseWs l) = true ∧
    (∀ c, (collapseWs l).head? = some c → isPySpace c = false) ∧
    (∀ c, (collapseWs l).getLast? = some c → isPySpace c = false) := by
  unfold collapseWs pyStrip
  refine ⟨ltrimWs_noDbl (rtrimWs_noDbl (subWs_noDbl l)), ?_, ?_⟩
  · intro c hc
    exact ltrimWs_head hc
  · intro c hc
    have hne : ltrimWs (rtrimWs (subWs l)) ≠ [] := by
      intro hx
      rw [hx] at hc
      simp at hc
    rw [ltrimWs_getLast hne] at hc
    exact rtrimWs_last hc

/-- Identity of ltrimWs when the head is not whitespace. -/
theorem ltrimWs_fix {l : List Char} (h : ∀ c, l.head? = some c → isPySpace c = false) :
    ltrimWs l = l := by
  cases l with
  | nil => rfl
  | cons a r => simp [ltrimWs, h a rfl]

/-- Identity of rtrimWs when the last character is not whitespace. -/
theorem rtrimWs_fix {l : List Char} (h : ∀ c, l.getLast? = some c → isPySpace c = false) :
    rtrimWs l = l := by
  induction l with
  | nil => rfl
  | cons a r ih =>
    rcases hr : r with _ | ⟨b, t⟩
    · have ha := h a (by simp [hr])
      simp [rtrimWs, ha]
    · rw [← hr]
      have hrr : rtrimWs r = r := by
        apply ih
        intro c hc
        apply h
        rw [hr] at hc ⊢
        rw [List.getLast?_cons_cons]
        exact hc
      have hne : r ≠ [] := by simp [hr]
      simp only [rtrimWs, hrr]
      rw [if_neg]
      simp [hne]

/-- Identity of subWs on strings whose whitespace is single plain spaces. -/
theorem subWs_fix {l : List Char} (hnd : noDbl l = true)
    (hsp : ∀ c ∈ l, isPySpace c = (c == ' ')) : subWs l = l := by
  induction l with
  | nil => rfl
  | cons a r ih =>
    cases r with
    | nil =>
      unfold subWs
      split_ifs with hx
      · have := hsp a (by simp)
        rw [hx] at this
        simp at this
        rw [this]
      · rfl
    | cons d r2 =>
      have hihp : ∀ c ∈ d :: r2, isPySpace c = (c == ' ') := by
        intro c hc
        exact hsp c (List.mem_cons_of_mem a hc)
      have hih := ih (noDbl_cons.mp hnd).1 hihp
      unfold subWs
      split_ifs with h1 h2
      · exfalso
        have hda := hsp a (by simp)
        have hdd := hsp d (by simp)
        rw [h1] at hda
        rw [h2] at hdd
        simp at hda hdd
        have := (noDbl_cons.mp hnd).2 d rfl
        exact this ⟨hda, hdd⟩
      · have hda := hsp a (by simp)
        rw [h1] at hda
        simp at hda
        rw [hih, hda]
      · rw [hih]

/-- Identity of pyLower on the canonical charset. -/
theorem pyLower_fix {l : List Char} (h : ∀ c ∈ l, c = ' ' ∨ lowerWordChar c = true) :
    pyLower l = l := by
  induction l with
  | nil => rfl
  | cons a r ih =>
    have ha : lowerChar a = a := by
      rcases h a (by simp) with rfl | h2
      · exact lowerChar_eq_self _ (by decide)
      · rw [lowerWordChar_iff] at h2
        exact lowerChar_eq_self _ (by omega)
    have hr := ih fun c hc => h c (List.mem_cons_of_mem a hc)
    simp only [pyLower] at hr ⊢
    simp [ha, hr]

/-- Identity of nfkdStr on ASCII strings. -/
theorem nfkdStr_fix {l : List Char} (h : ∀ c ∈ l, c.toNat ≤ 127) : nfkdStr l = l := by
  induction l with
  | nil => rfl
  | cons a r ih =>
    have ha : nfkdChar a = [a] := by
      unfold nfkdChar
      rw [if_pos (h a (by simp))]
    have hr := ih fun c hc => h c (List.mem_cons_of_mem a hc)
    simp only [nfkdStr] at hr ⊢
    simp [ha, hr]

/-- Identity of removePunct on word-or-space strings. -/
theorem removePunct_fix {l : List Char} (h : ∀ c ∈ l, (isPyWord c || isPySpace c) = true) :
    removePunct l = l :=
  List.filter_eq_self.mpr h

/-- Identity of removeBracketChars when no bracket character occurs. -/
theorem removeBracketChars_fix {l : List Char}
    (h : ∀ c ∈ l, ¬(c = '(' ∨ c = ')' ∨ c = '[' ∨ c = ']')) :
    removeBracketChars l = l := by
  apply List.filter_eq_self.mpr
  intro a ha
  have ha2 := h a ha
  push_neg at ha2
  simp [ha2.1, ha2.2.1, ha2.2.2.1, ha2.2.2.2]

/-- Identity of removeDelimF when the opening delimiter does not occur. -/
theorem removeDelimF_fix {op cl : Char} :
    ∀ {f : ℕ} {l : List Char}, op ∉ l → removeDelimF op cl f l = l := by
  intro f
  induction f with
  | zero => intro l h; rfl
  | succ f ih =>
    intro l h
    cases l with
    | nil => rfl
    | cons a r =>
      unfold removeDelimF
      rw [if_neg (by rintro rfl; exact h (by simp))]
      rw [ih fun hx => h (List.mem_cons_of_mem a hx)]

/-- Identity of replaceAllF when some pattern character does not occur. -/
theorem replaceAllF_fix (p : Char) {pat rep : List Char} (hp : p ∈ pat) :
    ∀ {f : ℕ} {l : List Char}, p ∉ l → replaceAllF pat rep f l = l := by
  intro f
  induction f with
  | zero => intro l h; rfl
  | succ f ih =>
    intro l h
    cases l with
    | nil => rfl
    | cons a r =>
      unfold replaceAllF
      rw [if_neg, ih fun hx => h (List.mem_cons_of_mem a hx)]
      intro hpre
      rw [List.isPrefixOf_iff_prefix] at hpre
      exact h (hpre.subset hp)

/-- Identity of replaceAll when some pattern character does not occur. -/
theorem replaceAll_fix (p : Char) {pat rep l : List Char} (hp : p ∈ pat) (h : p ∉ l) :
    replaceAll pat rep l = l :=
  replaceAllF_fix p hp h

/-- Identity of the literal-substitution chain on the canonical charset:
every one of its patterns contains a character outside that charset. -/
theorem replaceSpecifics_fix {l : List Char}
    (h : ∀ c ∈ l, c = ' ' ∨ lowerWordChar c = true) : replaceSpecifics l = l := by
  have hni : ∀ x : Char, ¬(x = ' ' ∨ lowerWordChar x = true) → x ∉ l := by
    intro x hx hmem
    exact hx (h x hmem)
  unfold replaceSpecifics
  rw [replaceAll_fix '’' (by decide) (hni _ (by decide)),
    replaceAll_fix '×' (by decide) (hni _ (by decide)),
    replaceAll_fix '·' (by decide) (hni _ (by decide)),
    replaceAll_fix '‐' (by decide) (hni _ (by decide)),
    replaceAll_fix '…' (by decide) (hni _ (by decide)),
    replaceAll_fix '/' (by decide) (hni _ (by decide)),
    replaceAll_fix 'A' (by decide) (hni _ (by decide)),
    replaceAll_fix 'E' (by decide) (hni _ (by decide)),
    replaceAll_fix 'I' (by decide) (hni _ (by decide)),
    replaceAll_fix 'O' (by decide) (hni _ (by decide)),
    replaceAll_fix 'U' (by decide) (hni _ (by decide)),
    replaceAll_fix 'S' (by decide) (hni _ (by decide)),
    replaceAll_fix '-' (by decide) (hni _ (by decide)),
    replaceAll_fix 'I' (by decide) (hni _ (by decide))]

/-- Identity of pyStrip on canonical-shaped strings. -/
theorem pyStrip_fix {l : List Char} (h : ∀ c ∈ l, c = ' ' ∨ lowerWordChar c = true)
    (hh : l.head? ≠ some ' ') (hl : l.getLast? ≠ some ' ') : pyStrip l = l := by
  have hh2 : ∀ c, l.head? = some c → isPySpace c = false := by
    intro c hc
    have hcm : c ∈ l := List.mem_of_mem_head? (by rw [hc]; rfl)
    rw [canonChar_space c (h c hcm)]
    simp only [beq_eq_false_iff_ne]
    intro hx
    rw [hx] at hc
    exact hh hc
  have hl2 : ∀ c, l.getLast? = some c → isPySpace c = false := by
    intro c hc
    have h1 : c ∈ l.getLast? := by rw [hc]; rfl
    rcases List.mem_getLast?_eq_getLast h1 with ⟨hne, rfl⟩
    have hcm := List.getLast_mem hne
    rw [canonChar_space _ (h _ hcm)]
    simp only [beq_eq_false_iff_ne]
    intro hx
    rw [hx] at hc
    exact hl hc
  unfold pyStrip
  rw [rtrimWs_fix hl2, ltrimWs_fix hh2]

/-- Characters of subWords come from the input. -/
theorem subWords_mem {pats : List (List (Option Char))} {c : Char} {l : List Char}
    (h : c ∈ subWords pats l) : c ∈ l :=
  subWordsF_mem h

/-- Characters of rmYears come from the input. -/
theorem rmYears_mem {c : Char} {l : List Char} (h : c ∈ rmYears l) : c ∈ l :=
  rmYearsF_mem h

/-- Characters of removeDelim come from the input. -/
theorem removeDelim_mem {op cl c : Char} {l : List Char} (h : c ∈ removeDelim op cl l) :
    c ∈ l :=
  removeDelimF_mem h

/-- Text component of the tracked runner is the composition of the steps. -/
theorem runTrack_text (ign dbg : List String) :
    ∀ (steps : List (String × (List Char → List Char)))
      (st : List Char × List (String × Bool) × List StepRecord),
      (runTrack ign dbg steps st).1 = applyAll steps st.1 := by
  intro steps
  induction steps with
  | nil => intro st; rfl
  | cons s rest ih =>
    intro st
    rcases st with ⟨text, tally, rep⟩
    rcases s with ⟨name, f⟩
    simp only [runTrack, applyAll]
    exact ih _

/-- Canonical output of the extended pipeline as an explicit composition. -/
theorem canonExt_eq (s : List Char) :
    canonExt s =
      collapseWs (removePunct (nfkdStr (rmYears (removeBracketChars
        (subWords wordsExt (pyLower (pyStrip (replaceSpecifics s)))))))) := by
  unfold canonExt clean_string_extended
  rw [runTrack_text]
  simp only [stepListExt, applyAll]

/-- Ascii canonical shape of the tail of both pipelines: the punctuation
filter leaves word characters and whitespace, the unicode fold leaves only
ASCII, and the final collapse yields single spaces with trimmed ends.  The
fold can emit uppercase ASCII letters, so no lowercase guarantee holds
here. -/
theorem shape_tail_ascii (y : List Char) :
    CanonicalShapeAscii (collapseWs (removePunct (nfkdStr y))) := by
  obtain ⟨hnd, hhd, hlast⟩ := collapseWs_shape (removePunct (nfkdStr y))
  refine ⟨?_, hnd, ?_, ?_⟩
  · intro c hc
    rcases collapseWs_mem hc with rfl | ⟨hc2, hcns⟩
    · exact Or.inl rfl
    · right
      obtain ⟨hc3, hws⟩ := removePunct_mem hc2
      obtain ⟨d, hd, hcd⟩ := nfkdStr_mem hc3
      have hascii := nfkdChar_ascii hcd
      rw [Bool.or_eq_true] at hws
      rcases hws with hw | hs
      · rw [isPyWord_iff] at hw
        rw [asciiWordChar_iff]
        omega
      · rw [hs] at hcns
        simp at hcns
  · intro hx
    exact absurd (hhd ' ' hx) (by decide)
  · intro hx
    exact absurd (hlast ' ' hx) (by decide)

/-- Ascii canonical shape of the output of clean_string_extended. -/
theorem canonExt_shape_ascii (s : List Char) : CanonicalShapeAscii (canonExt s) := by
  rw [canonExt_eq]
  exact shape_tail_ascii _

/-- Ascii canonical shape of the output of clean_string. -/
theorem clean_string_shape_ascii (s : List Char) :
    CanonicalShapeAscii (clean_string s) := by
  unfold clean_string
  exact shape_tail_ascii _

/-- A map fixing a list fixes each of its elements. -/
theorem map_eq_self_forall {f : Char → Char} :
    ∀ {l : List Char}, l.map f = l → ∀ c ∈ l, f c = c := by
  intro l
  induction l with
  | nil =>
    intro _ c hc
    simp at hc
  | cons a r ih =>
    intro h c hc
    rw [List.map_cons, List.cons.injEq] at h
    rcases List.mem_cons.mp hc with rfl | hc2
    · exact h.1
    · exact ih h.2 c hc2

/-- An ascii-shaped canonical string fixed by the lowercase step has the
claimed lowercase shape: the only characters of the ascii charset moved by
lowerChar are the capital letters. -/
theorem shape_of_lower_fix {y : List Char} (hw : CanonicalShapeAscii y)
    (hlow : pyLower y = y) : CanonicalShape y := by
  obtain ⟨hchar, hnd, hh, hl⟩ := hw
  refine ⟨?_, hnd, hh, hl⟩
  intro c hc
  rcases hchar c hc with rfl | hcw
  · exact Or.inl rfl
  · right
    have hfix : lowerChar c = c := map_eq_self_forall hlow c hc
    rw [asciiWordChar_iff] at hcw
    rw [lowerWordChar_iff]
    rcases lowerChar_toNat c with ⟨_, hnot⟩ | ⟨heq, _⟩
    · omega
    · rw [hfix] at heq
      omega

/-- Symmetry of the Levenshtein recursion at every fuel. -/
theorem levF_symm : ∀ (f : ℕ) (xs ys : List Char), levF f xs ys = levF f ys xs := by
  intro f
  induction f with
  | zero =>
    intro xs ys
    cases xs <;> cases ys <;> simp [levF] <;> omega
  | succ f ih =>
    intro xs ys
    cases xs with
    | nil => cases ys <;> simp [levF]
    | cons x xs2 =>
      cases ys with
      | nil => simp [levF]
      | cons y ys2 =>
        simp only [levF]
        by_cases hxy : x = y
        · rw [if_pos hxy, if_pos hxy.symm, ih]
        · rw [if_neg hxy, if_neg fun hy => hxy hy.symm,
            ih xs2 ys2, ih (x :: xs2) ys2, ih xs2 (y :: ys2)]
          omega

/-- Upper bound of the Levenshtein recursion at every fuel. -/
theorem levF_le : ∀ (f : ℕ) (xs ys : List Char), levF f xs ys ≤ max xs.length ys.length := by
  intro f
  induction f with
  | zero =>
    intro xs ys
    cases xs <;> cases ys <;> simp [levF]
  | succ f ih =>
    intro xs ys
    cases xs with
    | nil => simp [levF]
    | cons x xs2 =>
      cases ys with
      | nil => simp [levF]
      | cons y ys2 =>
        simp only [levF]
        split_ifs with hxy
        · have := ih xs2 ys2
          simp only [List.length_cons]
          omega
        · have h1 := ih xs2 ys2
          simp only [List.length_cons]
          omega

/-- Symmetry of the Levenshtein distance. -/
theorem levDist_symm (a b : List Char) : levDist a b = levDist b a := by
  unfold levDist
  rw [Nat.add_comm, levF_symm]

/-- Upper bound of the Levenshtein distance. -/
theorem levDist_le (a b : List Char) : levDist a b ≤ max a.length b.length :=
  levF_le _ _ _

/-- Symmetry of the normalized edit-distance similarity. -/
theorem levRatioVal_symm (a b : List Char) : levRatioVal a b = levRatioVal b a := by
  unfold levRatioVal
  rw [levDist_symm, Nat.max_comm]

/-- Nonnegativity of the normalized edit-distance similarity. -/
theorem levRatioVal_nonneg (a b : List Char) : 0 ≤ levRatioVal a b := by
  unfold levRatioVal
  split_ifs with h
  · norm_num
  · rw [sub_nonneg, div_le_one (by positivity)]
    exact_mod_cast levDist_le a b

/-- Upper bound one of the normalized edit-distance similarity. -/
theorem levRatioVal_le_one (a b : List Char) : levRatioVal a b ≤ 1 := by
  unfold levRatioVal
  split_ifs with h
  · norm_num
  · have : 0 ≤ (levDist a b : ℚ) / (max a.length b.length : ℕ) := by positivity
    linarith

/-- Symmetry of the token-sort ratio. -/
theorem tokenSortRatioVal_symm (a b : List Char) :
    tokenSortRatioVal a b = tokenSortRatioVal b a :=
  levRatioVal_symm _ _

/-- Lower bound of a left fold of max. -/
theorem foldl_max_init_le : ∀ (l : List ℚ) (init : ℚ), init ≤ l.foldl max init := by
  intro l
  induction l with
  | nil => intro init; exact le_refl _
  | cons x r ih =>
    intro init
    exact le_trans (le_max_left init x) (ih (max init x))

/-- Upper bound of a left fold of max. -/
theorem foldl_max_le : ∀ (l : List ℚ) (init b : ℚ), init ≤ b → (∀ x ∈ l, x ≤ b) →
    l.foldl max init ≤ b := by
  intro l
  induction l with
  | nil => intro init b h _; exact h
  | cons x r ih =>
    intro init b h hall
    exact ih _ _ (max_le h (hall x (by simp))) fun z hz => hall z (by simp [hz])

/-- Nonnegativity of the best-window ratio. -/
theorem windowAlignRatioVal_nonneg (a b : List Char) : 0 ≤ windowAlignRatioVal a b := by
  unfold windowAlignRatioVal
  split_ifs <;> exact foldl_max_init_le _ 0

/-- Upper bound one of the best-window ratio. -/
theorem windowAlignRatioVal_le_one (a b : List Char) : windowAlignRatioVal a b ≤ 1 := by
  unfold windowAlignRatioVal
  split_ifs <;>
  · apply foldl_max_le _ _ _ (by norm_num)
    intro x hx
    obtain ⟨w, _, rfl⟩ := List.mem_map.mp hx
    exact levRatioVal_le_one _ _

/-- Window list of a string over its own length is the string itself. -/
theorem windowsOf_self (l : List Char) : windowsOf l.length l = [l] := by
  unfold windowsOf
  rw [show l.length + 1 - l.length = 1 by omega, show List.range 1 = [0] from rfl]
  simp

/-- Symmetry of the best-window ratio. -/
theorem windowAlignRatioVal_symm (a b : List Char) :
    windowAlignRatioVal a b = windowAlignRatioVal b a := by
  unfold windowAlignRatioVal
  rcases lt_trichotomy a.length b.length with h | h | h
  · rw [if_pos (le_of_lt h), if_neg (not_le.mpr h)]
  · rw [if_pos (le_of_eq h), if_pos (le_of_eq h.symm)]
    have hwb : windowsOf a.length b = [b] := by rw [h, windowsOf_self]
    have hwa : windowsOf b.length a = [a] := by rw [← h, windowsOf_self]
    simp [hwb, hwa, levRatioVal_symm a b]
  · rw [if_neg (not_le.mpr h), if_pos (le_of_lt h)]

/-- Bound of the common prefix length by the first length. -/
theorem cpl_le_left : ∀ (xs ys : List Char), cpl xs ys ≤ xs.length := by
  intro xs
  induction xs with
  | nil => intro ys; cases ys <;> simp [cpl]
  | cons x r ih =>
    intro ys
    cases ys with
    | nil => simp [cpl]
    | cons y t =>
      simp only [cpl]
      split_ifs with h
      · have := ih t
        simp only [List.length_cons]
        omega
      · simp

/-- Bound of the common prefix length by the second length. -/
theorem cpl_le_right : ∀ (xs ys : List Char), cpl xs ys ≤ ys.length := by
  intro xs
  induction xs with
  | nil => intro ys; cases ys <;> simp [cpl]
  | cons x r ih =>
    intro ys
    cases ys with
    | nil => simp [cpl]
    | cons y t =>
      simp only [cpl]
      split_ifs with h
      · have := ih t
        simp only [List.length_cons]
        omega
      · simp

/-- Invariant of the longest-match search: a zero match or an in-range one. -/
theorem flm_inv (a b : List Char) :
    (flm a b).2.2 = 0 ∨
    (0 < (flm a b).2.2 ∧ (flm a b).1 + (flm a b).2.2 ≤ a.length ∧
      (flm a b).2.1 + (flm a b).2.2 ≤ b.length) := by
  have step : ∀ (best : ℕ × ℕ × ℕ) (ij : ℕ × ℕ),
      (best.2.2 = 0 ∨ (0 < best.2.2 ∧ best.1 + best.2.2 ≤ a.length ∧
        best.2.1 + best.2.2 ≤ b.length)) →
      ((flmStep a b best ij).2.2 = 0 ∨
       (0 < (flmStep a b best ij).2.2 ∧
        (flmStep a b best ij).1 + (flmStep a b best ij).2.2 ≤ a.length ∧
        (flmStep a b best ij).2.1 + (flmStep a b best ij).2.2 ≤ b.length)) := by
    intro best ij h
    unfold flmStep
    split_ifs with hlt
    · right
      have hk1 : cpl (a.drop ij.1) (b.drop ij.2) ≤ a.length - ij.1 := by
        rw [← List.length_drop]
        exact cpl_le_left _ _
      have hk2 : cpl (a.drop ij.1) (b.drop ij.2) ≤ b.length - ij.2 := by
        rw [← List.length_drop]
        exact cpl_le_right _ _
      simp only
      omega
    · exact h
  have main : ∀ (l : List (ℕ × ℕ)) (init : ℕ × ℕ × ℕ),
      (init.2.2 = 0 ∨ (0 < init.2.2 ∧ init.1 + init.2.2 ≤ a.length ∧
        init.2.1 + init.2.2 ≤ b.length)) →
      ((l.foldl (flmStep a b) init).2.2 = 0 ∨
       (0 < (l.foldl (flmStep a b) init).2.2 ∧
        (l.foldl (flmStep a b) init).1 + (l.foldl (flmStep a b) init).2.2 ≤ a.length ∧
        (l.foldl (flmStep a b) init).2.1 + (l.foldl (flmStep a b) init).2.2 ≤ b.length)) := by
    intro l
    induction l with
    | nil => intro init h; exact h
    | cons ij r ih => intro init h; exact ih _ (step init ij h)
  unfold flm
  exact main _ _ (Or.inl rfl)

/-- Bound of the match-count recursion by the shorter length, at every fuel. -/
theorem matchesF_le : ∀ (f : ℕ) (a b : List Char),
    matchesF f a b ≤ min a.length b.length := by
  intro f
  induction f with
  | zero => intro a b; simp [matchesF]
  | succ f ih =>
    intro a b
    simp only [matchesF]
    split_ifs with h0
    · simp
    · rcases flm_inv a b with h | ⟨hpos, ha, hb⟩
      · exact absurd h h0
      · have i1 := ih (a.take (flm a b).1) (b.take (flm a b).2.1)
        have i2 := ih (a.drop ((flm a b).1 + (flm a b).2.2))
          (b.drop ((flm a b).2.1 + (flm a b).2.2))
        simp only [List.length_take, List.length_drop] at i1 i2
        omega

/-- Nonnegativity of the sequence ratio. -/
theorem sequenceRatioVal_nonneg (a b : List Char) : 0 ≤ sequenceRatioVal a b := by
  unfold sequenceRatioVal
  split_ifs with h
  · norm_num
  · positivity

/-- Upper bound one of the sequence ratio. -/
theorem sequenceRatioVal_le_one (a b : List Char) : sequenceRatioVal a b ≤ 1 := by
  unfold sequenceRatioVal
  split_ifs with h
  · norm_num
  · rw [div_le_one (by positivity)]
    have hm := matchesF_le (a.length + b.length) a b
    have h2 : 2 * matchesCount a b ≤ a.length + b.length := by
      unfold matchesCount
      omega
    exact_mod_cast h2

/-- Nonnegativity of the penalty. -/
theorem penality_nonneg (s1 s2 : List Char) : 0 ≤ penality s1 s2 := by
  unfold penality
  positivity

/-- Symmetry of the penalty. -/
theorem penality_symm (s1 s2 : List Char) : penality s1 s2 = penality s2 s1 := by
  unfold penality
  ring

/-- Names of the steps of clean_string_extended. -/
def stepNames : List String := stepListExt.map Prod.fst

/-- Text before the stopword step of the extended pipeline. -/
def extStage3 (s : List Char) : List Char := pyLower (pyStrip (replaceSpecifics s))

/-- Text after the stopword step. -/
def extStage4 (s : List Char) : List Char := subWords wordsExt (extStage3 s)

/-- Text after the bracket step. -/
def extStage5 (s : List Char) : List Char := removeBracketChars (extStage4 s)

/-- Text after the year step. -/
def extStage6 (s : List Char) : List Char := rmYears (extStage5 s)

/-- Text after the unicode step. -/
def extStage7 (s : List Char) : List Char := nfkdStr (extStage6 s)

/-- Text after the punctuation step. -/
def extStage8 (s : List Char) : List Char := removePunct (extStage7 s)

/-- Changed flags of the four semantic (non-ignored) steps of the extended
pipeline under the default configuration: stopword removal, bracket removal,
year removal and punctuation removal. -/
def semanticFlags (s : List Char) : List Bool :=
  [decide (¬ extStage3 s = extStage4 s), decide (¬ extStage4 s = extStage5 s),
   decide (¬ extStage5 s = extStage6 s), decide (¬ extStage7 s = extStage8 s)]

/-- Tracked runs with configurations that agree on every step name are equal. -/
theorem runTrack_congr (ign1 dbg1 ign2 dbg2 : List String) :
    ∀ (steps : List (String × (List Char → List Char))),
      (∀ nf ∈ steps, ((nf.1 ∈ ign1) ↔ (nf.1 ∈ ign2)) ∧ ((nf.1 ∈ dbg1) ↔ (nf.1 ∈ dbg2))) →
      ∀ st, runTrack ign1 dbg1 steps st = runTrack ign2 dbg2 steps st := by
  intro steps
  induction steps with
  | nil => intro _ st; rfl
  | cons s rest ih =>
    intro h st
    rcases st with ⟨text, tally, rep⟩
    rcases s with ⟨name, f⟩
    have hs := h (name, f) (by simp)
    simp only [runTrack]
    rw [if_congr hs.2 rfl (if_congr (not_congr hs.1) rfl rfl)]
    exact ih (fun nf hnf => h nf (by simp [hnf])) _

/-- Tally of the default-configuration run: exactly the four semantic steps,
in pipeline order, with their changed flags. -/
theorem tally_eq (s : List Char) :
    (clean_string_extended s none none).2.1 =
      [( "remove words_to_remove", decide (¬ extStage3 s = extStage4 s)),
       ( "remove brackets only", decide (¬ extStage4 s = extStage5 s)),
       ( "remove years", decide (¬ extStage5 s = extStage6 s)),
       ( "remove punctuation", decide (¬ extStage7 s = extStage8 s))] := by
  unfold clean_string_extended extStage8 extStage7 extStage6 extStage5 extStage4 extStage3
  simp only [Option.getD, stepListExt, runTrack, defaultIgnore, List.mem_cons,
    List.not_mem_nil, String.reduceEq, or_false, false_or, or_true, true_or, not_false_iff,
    not_true, if_true, if_false, ite_true, ite_false, List.nil_append, List.append_nil,
    List.cons_append]

/-- Count of changed steps of a four-step tally as a filtered flag count. -/
theorem countChanged_four (n1 n2 n3 n4 : String) (b1 b2 b3 b4 : Bool) :
    countChanged [(n1, b1), (n2, b2), (n3, b3), (n4, b4)] =
      ([b1, b2, b3, b4].filter id).length := by
  cases b1 <;> cases b2 <;> cases b3 <;> cases b4 <;> rfl

/-- Nonnegativity of the token-sort ratio. -/
theorem tokenSortRatioVal_nonneg (a b : List Char) : 0 ≤ tokenSortRatioVal a b :=
  levRatioVal_nonneg _ _

/-- Upper bound one of the token-sort ratio. -/
theorem tokenSortRatioVal_le_one (a b : List Char) : tokenSortRatioVal a b ≤ 1 :=
  levRatioVal_le_one _ _

/-- Claim C1: canonical-equality dominance.  For all strings with distinct raw
forms whose canonical forms coincide, are_strings_similar returns a match
regardless of the threshold, with score one minus the penalty clamped below
at zero. -/
theorem canonical_equality_dominance (s1 s2 : List Char) (t : ℚ) (hne : s1 ≠ s2)
    (hcanon : (clean_string_extended s1 none none).1 = (clean_string_extended s2 none none).1) :
    are_strings_similar s1 s2 t = (true, max 0 (1 - penality s1 s2)) := by
  unfold are_strings_similar
  rw [if_neg hne, if_pos hcanon]

/-- Witness of claim C1 at the concrete pair Imagine and imagine. -/
theorem canonical_equality_dominance_witness :
    ( "Imagine".toList ≠ "imagine".toList) ∧
    (clean_string_extended ( "Imagine".toList) none none).1 =
      (clean_string_extended ( "imagine".toList) none none).1 ∧
    are_strings_similar ( "Imagine".toList) ( "imagine".toList) (17 / 20) =
      (true, max 0 (1 - penality ( "Imagine".toList) ( "imagine".toList))) :=
  ⟨by decide, by decide,
    canonical_equality_dominance ( "Imagine".toList) ( "imagine".toList) (17 / 20)
      (by decide) (by decide)⟩

/-- Claim C2: penalty accounting.  For distinct inputs the penalty equals one
hundredth per changed semantic step of either normalization, where the
semantic steps of the default configuration are exactly stopword removal,
bracket removal, year removal and punctuation removal; the cosmetic steps
never enter the tally. -/
theorem penalty_accounting (s1 s2 : List Char) (hne : s1 ≠ s2) :
    ((clean_string_extended s1 none none).2.1).map Prod.fst =
      [ "remove words_to_remove", "remove brackets only", "remove years",
        "remove punctuation"] ∧
    penality s1 s2 =
      (1 / 100) * (((semanticFlags s1).filter id).length : ℚ) +
      (1 / 100) * (((semanticFlags s2).filter id).length : ℚ) := by
  constructor
  · rw [tally_eq]
    rfl
  · unfold penality
    rw [tally_eq s1, tally_eq s2, countChanged_four, countChanged_four]
    rfl

/-- Witness of claim C2 at a concrete pair. -/
theorem penalty_accounting_witness :
    ( "ab".toList ≠ "cd".toList) ∧
    (((clean_string_extended ( "ab".toList) none none).2.1).map Prod.fst =
      [ "remove words_to_remove", "remove brackets only", "remove years",
        "remove punctuation"] ∧
    penality ( "ab".toList) ( "cd".toList) =
      (1 / 100) * (((semanticFlags ( "ab".toList)).filter id).length : ℚ) +
      (1 / 100) * (((semanticFlags ( "cd".toList)).filter id).length : ℚ)) :=
  ⟨by decide, penalty_accounting ( "ab".toList) ( "cd".toList) (by decide)⟩

/-- Claim C6: score range.  The score returned by are_strings_similar always
lies between zero and one. -/
theorem score_range (s1 s2 : List Char) (t : ℚ) :
    0 ≤ (are_strings_similar s1 s2 t).2 ∧ (are_strings_similar s1 s2 t).2 ≤ 1 := by
  unfold are_strings_similar
  split_ifs with h1 h2
  · exact ⟨by norm_num, by norm_num⟩
  · refine ⟨le_max_left 0 _, ?_⟩
    apply max_le (by norm_num)
    have := penality_nonneg s1 s2
    linarith
  · refine ⟨le_max_left 0 _, ?_⟩
    apply max_le (by norm_num)
    have ha := sequenceRatioVal_le_one (clean_string_extended s1 none none).1
      (clean_string_extended s2 none none).1
    have hb := tokenSortRatioVal_le_one (clean_string_extended s1 none none).1
      (clean_string_extended s2 none none).1
    have hc := windowAlignRatioVal_le_one (clean_string_extended s1 none none).1
      (clean_string_extended s2 none none).1
    have hp := penality_nonneg s1 s2
    unfold similarityScore
    linarith

/-- Counterexample of claim C8: the canonical form is not always lowercase.
The trademark sign survives the case-fold step unchanged, having no
lowercase mapping, and only afterwards the NFKD fold decomposes it to the
uppercase letters TM, in both pipelines. -/
theorem canonical_form_cex :
    clean_string [ '™'] = [ 'T', 'M'] ∧ canonExt [ '™'] = [ 'T', 'M'] ∧
    ¬ CanonicalShape (clean_string [ '™']) ∧ ¬ CanonicalShape (canonExt [ '™']) := by
  have h1 : clean_string [ '™'] = [ 'T', 'M'] := by decide
  have h2 : canonExt [ '™'] = [ 'T', 'M'] := by decide
  refine ⟨h1, h2, ?_, ?_⟩
  · rw [h1]
    intro h
    exact absurd (h.1 'T' (by decide)) (by decide)
  · rw [h2]
    intro h
    exact absurd (h.1 'T' (by decide)) (by decide)

/-- Claim C8 as amended: the output of either normalization pipeline consists
of ASCII word characters and single spaces only, with no leading or trailing
whitespace; it need not be lowercase, because the NFKD fold runs after the
case-fold step and can emit uppercase ASCII letters. -/
theorem canonical_form_invariant_ascii (s : List Char) :
    CanonicalShapeAscii (clean_string s) ∧ CanonicalShapeAscii (canonExt s) :=
  ⟨clean_string_shape_ascii s, canonExt_shape_ascii s⟩

/-- Claim C9: unknown step names are no-ops.  Adding a name that matches no
pipeline step to the ignore list or to the debug list leaves the entire
result of clean_string_extended, canonical string, tally and report,
unchanged. -/
theorem unknown_step_noop (text : List Char) (ign dbg : List String) (u : String)
    (hu : u ∉ stepNames) :
    clean_string_extended text (some (u :: ign)) (some dbg) =
      clean_string_extended text (some ign) (some dbg) ∧
    clean_string_extended text (some ign) (some (u :: dbg)) =
      clean_string_extended text (some ign) (some dbg) := by
  have hstep : ∀ nf ∈ stepListExt, nf.1 ≠ u := by
    intro nf hnf he
    exact hu (he ▸ List.mem_map_of_mem Prod.fst hnf)
  constructor
  · unfold clean_string_extended
    simp only [Option.getD]
    apply runTrack_congr
    intro nf hnf
    refine ⟨?_, Iff.rfl⟩
    constructor
    · intro hm
      rcases List.mem_cons.mp hm with he | hm2
      · exact absurd he (hstep nf hnf)
      · exact hm2
    · exact fun hm => List.mem_cons_of_mem u hm
  · unfold clean_string_extended
    simp only [Option.getD]
    apply runTrack_congr
    intro nf hnf
    refine ⟨Iff.rfl, ?_⟩
    constructor
    · intro hm
      rcases List.mem_cons.mp hm with he | hm2
      · exact absurd he (hstep nf hnf)
      · exact hm2
    · exact fun hm => List.mem_cons_of_mem u hm

/-- Witness of claim C9 at a concrete input and unknown step name. -/
theorem unknown_step_noop_witness :
    clean_string_extended ( "a b".toList) (some ( "zzz" :: defaultIgnore)) (some []) =
      clean_string_extended ( "a b".toList) (some defaultIgnore) (some []) ∧
    clean_string_extended ( "a b".toList) (some defaultIgnore) (some [ "zzz"]) =
      clean_string_extended ( "a b".toList) (some defaultIgnore) (some []) :=
  unknown_step_noop ( "a b".toList) defaultIgnore [] ( "zzz") (by decide)

/-- Characters that the literal-substitution chain can introduce. -/
def replacementChars : List Char :=
  [apos, 'x', '-', '.', '/', 'à', 'è', 'ì', 'ò', 'ù', 'S', 'a', 'n', ' ', 's', 'i', 'r',
   'o', 'R']

/-- Transitivity of membership along a checked inclusion. -/
theorem mem_trans_list {c : Char} {l1 l2 : List Char} (h : c ∈ l1)
    (hsub : ∀ e ∈ l1, e ∈ l2) : c ∈ l2 :=
  hsub c h

/-- Characters of replaceSpecifics come from the input or from the fixed
replacement strings. -/
theorem replaceSpecifics_mem {c : Char} {l : List Char} (h : c ∈ replaceSpecifics l) :
    c ∈ l ∨ c ∈ replacementChars := by
  unfold replaceSpecifics at h
  rcases replaceAllF_mem h with h | h
  on_goal 2 => exact Or.inr (mem_trans_list h (by decide))
  rcases replaceAllF_mem h with h | h
  on_goal 2 => exact Or.inr (mem_trans_list h (by decide))
  rcases replaceAllF_mem h with h | h
  on_goal 2 => exact Or.inr (mem_trans_list h (by decide))
  rcases replaceAllF_mem h with h | h
  on_goal 2 => exact Or.inr (mem_trans_list h (by decide))
  rcases replaceAllF_mem h with h | h
  on_goal 2 => exact Or.inr (mem_trans_list h (by decide))
  rcases replaceAllF_mem h with h | h
  on_goal 2 => exact Or.inr (mem_trans_list h (by decide))
  rcases replaceAllF_mem h with h | h
  on_goal 2 => exact Or.inr (mem_trans_list h (by decide))
  rcases replaceAllF_mem h with h | h
  on_goal 2 => exact Or.inr (mem_trans_list h (by decide))
  rcases replaceAllF_mem h with h | h
  on_goal 2 => exact Or.inr (mem_trans_list h (by decide))
  rcases replaceAllF_mem h with h | h
  on_goal 2 => exact Or.inr (mem_trans_list h (by decide))
  rcases replaceAllF_mem h with h | h
  on_goal 2 => exact Or.inr (mem_trans_list h (by decide))
  rcases replaceAllF_mem h with h | h
  on_goal 2 => exact Or.inr (mem_trans_list h (by decide))
  rcases replaceAllF_mem h with h | h
  on_goal 2 => exact Or.inr (mem_trans_list h (by decide))
  rcases replaceAllF_mem h with h | h
  on_goal 2 => exact Or.inr (mem_trans_list h (by decide))
  exact Or.inl h

/-- Derived character facts of canonical-shaped strings. -/
theorem canonical_chars_facts {y : List Char}
    (h : ∀ c ∈ y, c = ' ' ∨ lowerWordChar c = true) :
    (∀ c ∈ y, (isPyWord c || isPySpace c) = true) ∧ (∀ c ∈ y, c.toNat ≤ 127) ∧
    (∀ c ∈ y, ¬(c = '(' ∨ c = ')' ∨ c = '[' ∨ c = ']')) ∧
    (∀ c ∈ y, isPySpace c = (c == ' ')) := by
  refine ⟨?_, ?_, ?_, fun c hc => canonChar_space c (h c hc)⟩
  · intro c hc
    rcases h c hc with rfl | hw
    · decide
    · rw [lowerWordChar_iff] at hw
      rw [Bool.or_eq_true, isPyWord_iff]
      left
      omega
  · intro c hc
    rcases h c hc with rfl | hw
    · decide
    · rw [lowerWordChar_iff] at hw
      omega
  · intro c hc hvio
    rcases h c hc with rfl | hw
    · rcases hvio with he | he | he | he <;> exact absurd he (by decide)
    · rw [lowerWordChar_iff] at hw
      rcases hvio with he | he | he | he <;> (rw [he] at hw; revert hw; decide)

/-- Identity of collapseWs on canonical-shaped strings. -/
theorem collapseWs_fix {y : List Char} (hchar : ∀ c ∈ y, c = ' ' ∨ lowerWordChar c = true)
    (hnd : noDbl y = true) (hh : y.head? ≠ some ' ') (hl : y.getLast? ≠ some ' ') :
    collapseWs y = y := by
  unfold collapseWs
  rw [subWs_fix hnd (canonical_chars_facts hchar).2.2.2, pyStrip_fix hchar hh hl]

/-- Claim C4: evaluation of both stopword vocabularies at the tokens affected
by the missing commas of the clean_string list.  The extended pipeline
removes full, edit, bonus and expanded as individual words; clean_string
leaves them and instead removes the fused tokens bonusfull and expandededit;
album is removed by both. -/
theorem stopword_vocabulary_bug :
    clean_string ( "full".toList) = ( "full".toList) ∧
    (clean_string_extended ( "full".toList) none none).1 = [] ∧
    clean_string ( "edit".toList) = ( "edit".toList) ∧
    (clean_string_extended ( "edit".toList) none none).1 = [] ∧
    clean_string ( "bonus".toList) = ( "bonus".toList) ∧
    (clean_string_extended ( "bonus".toList) none none).1 = [] ∧
    clean_string ( "expanded".toList) = ( "expanded".toList) ∧
    (clean_string_extended ( "expanded".toList) none none).1 = [] ∧
    clean_string ( "bonusfull".toList) = [] ∧
    clean_string ( "expandededit".toList) = [] ∧
    clean_string ( "album".toList) = [] := by
  decide

/-- Counterexample of claim C5: the input full contains no bracket
characters, yet the two pipelines disagree on it. -/
theorem pipelines_divergence_cex :
    (∀ c ∈ ( "full".toList), ¬(c = '(' ∨ c = ')' ∨ c = '[' ∨ c = ']')) ∧
    clean_string ( "full".toList) ≠ (clean_string_extended ( "full".toList) none none).1 := by
  decide

/-- Claim C5 as amended: on inputs with no bracket characters the two
pipelines agree whenever their stopword substitutions agree on the
preprocessed text; the vocabularies differ by the fused tokens, so the
stopword agreement is a genuine extra hypothesis. -/
theorem pipelines_agree_amended (s : List Char)
    (hbr : ∀ c ∈ s, ¬(c = '(' ∨ c = ')' ∨ c = '[' ∨ c = ']'))
    (hsub : subWords wordsCS (extStage3 s) = subWords wordsExt (extStage3 s)) :
    clean_string s = (clean_string_extended s none none).1 := by
  rw [show (clean_string_extended s none none).1 = canonExt s from rfl, canonExt_eq]
  unfold clean_string
  unfold extStage3 at hsub
  have hlow : pyLower (pyLower (pyStrip (replaceSpecifics s))) =
      pyLower (pyStrip (replaceSpecifics s)) := by
    unfold pyLower
    rw [List.map_map]
    apply List.map_congr_left
    intro c _
    exact lowerChar_idem c
  rw [hlow, hsub]
  have hm : ∀ c ∈ subWords wordsExt (pyLower (pyStrip (replaceSpecifics s))),
      ¬(c = '(' ∨ c = ')' ∨ c = '[' ∨ c = ']') := by
    intro c hc hvio
    have h1 := subWords_mem hc
    obtain ⟨d, hd, rfl⟩ := List.mem_map.mp h1
    rcases lowerChar_cases d with heq | hge
    · rw [heq] at hvio
      rcases replaceSpecifics_mem (pyStrip_mem hd) with hds | hdr
      · exact hbr d hds hvio
      · exact (by decide :
          ∀ e ∈ replacementChars, ¬(e = '(' ∨ e = ')' ∨ e = '[' ∨ e = ']')) d hdr hvio
    · rcases hvio with he | he | he | he <;> (rw [he] at hge; exact absurd hge (by decide))
  have hpar : ('(' : Char) ∉ subWords wordsExt (pyLower (pyStrip (replaceSpecifics s))) :=
    fun hmem => hm _ hmem (Or.inl rfl)
  have hsq : ('[' : Char) ∉ subWords wordsExt (pyLower (pyStrip (replaceSpecifics s))) :=
    fun hmem => hm _ hmem (Or.inr (Or.inr (Or.inl rfl)))
  unfold removeDelim
  rw [removeDelimF_fix hpar, removeDelimF_fix hsq, removeBracketChars_fix hm]

/-- Witness of the amended claim C5 at a concrete bracket-free input. -/
theorem pipelines_agree_amended_witness :
    clean_string ( "hello".toList) = (clean_string_extended ( "hello".toList) none none).1 :=
  pipelines_agree_amended ( "hello".toList) (by decide) (by decide)

/-- Counterexample of claim C7: normalization is not idempotent, in either
pipeline, and a second pass can act through three distinct steps.  Collapsing
the double space of the first input creates a new stopword-vocabulary match
that only a second pass removes; the second input folds under NFKD to the
uppercase letters TM after the case-fold step already ran, and only a second
pass lowercases them. -/
theorem normalize_idempotence_cex :
    clean_string (clean_string ( "192  khz".toList)) ≠ clean_string ( "192  khz".toList) ∧
    canonExt (canonExt ( "192  khz".toList)) ≠ canonExt ( "192  khz".toList) ∧
    clean_string (clean_string [ '™']) ≠ clean_string [ '™'] ∧
    canonExt (canonExt [ '™']) ≠ canonExt [ '™'] := by
  decide

/-- Claim C7 as amended: normalization is idempotent on every input whose
canonical form is itself fixed by the lowercase, stopword and year steps; a
second pass can only act through those three steps. -/
theorem normalize_idempotence_amended (x : List Char) :
    (pyLower (canonExt x) = canonExt x →
      subWords wordsExt (canonExt x) = canonExt x → rmYears (canonExt x) = canonExt x →
      canonExt (canonExt x) = canonExt x) ∧
    (pyLower (clean_string x) = clean_string x →
      subWords wordsCS (clean_string x) = clean_string x →
      rmYears (clean_string x) = clean_string x →
      clean_string (clean_string x) = clean_string x) := by
  constructor
  · intro hlow hsub hyr
    obtain ⟨hchar, hnd, hh, hl⟩ := shape_of_lower_fix (canonExt_shape_ascii x) hlow
    obtain ⟨hws, hascii, hbr, hsp⟩ := canonical_chars_facts hchar
    rw [canonExt_eq (canonExt x)]
    rw [replaceSpecifics_fix hchar, pyStrip_fix hchar hh hl, hlow, hsub,
      removeBracketChars_fix hbr, hyr, nfkdStr_fix hascii, removePunct_fix hws,
      collapseWs_fix hchar hnd hh hl]
  · intro hlow hsub hyr
    obtain ⟨hchar, hnd, hh, hl⟩ := shape_of_lower_fix (clean_string_shape_ascii x) hlow
    obtain ⟨hws, hascii, hbr, hsp⟩ := canonical_chars_facts hchar
    have hstep : clean_string (clean_string x) =
        collapseWs (removePunct (nfkdStr (rmYears (removeDelim '[' ']' (removeDelim '(' ')'
          (subWords wordsCS
            (pyLower (pyLower (pyStrip (replaceSpecifics (clean_string x))))))))))) := rfl
    rw [hstep, replaceSpecifics_fix hchar, pyStrip_fix hchar hh hl, hlow, hlow, hsub]
    have hpar : ('(' : Char) ∉ clean_string x := fun hmem => hbr _ hmem (Or.inl rfl)
    have hsq : ('[' : Char) ∉ clean_string x :=
      fun hmem => hbr _ hmem (Or.inr (Or.inr (Or.inl rfl)))
    unfold removeDelim
    rw [removeDelimF_fix hpar, removeDelimF_fix hsq, hyr, nfkdStr_fix hascii,
      removePunct_fix hws, collapseWs_fix hchar hnd hh hl]

/-- Witness of the amended claim C7 at a concrete input. -/
theorem normalize_idempotence_witness :
    canonExt (canonExt ( "hello world".toList)) = canonExt ( "hello world".toList) ∧
    clean_string (clean_string ( "hello world".toList)) =
      clean_string ( "hello world".toList) :=
  ⟨(normalize_idempotence_amended ( "hello world".toList)).1
      (by decide) (by decide) (by decide),
   (normalize_idempotence_amended ( "hello world".toList)).2
      (by decide) (by decide) (by decide)⟩

/-- Evaluation of the three metrics and the penalty at the asymmetric pair. -/
theorem asym_pair_eval_fwd :
    are_strings_similar ( "pwzq".toList) ( "qpz".toList) (17 / 20) = (false, 97 / 252) := by
  have hc1 : (clean_string_extended ( "pwzq".toList) none none).1 = ( "pwzq".toList) := by
    decide
  have hc2 : (clean_string_extended ( "qpz".toList) none none).1 = ( "qpz".toList) := by
    decide
  have hpen : penality ( "pwzq".toList) ( "qpz".toList) = 0 := by
    unfold penality
    rw [show countChanged (clean_string_extended ( "pwzq".toList) none none).2.1 = 0 from
        by decide,
      show countChanged (clean_string_extended ( "qpz".toList) none none).2.1 = 0 from
        by decide]
    norm_num
  have hseq : sequenceRatioVal ( "pwzq".toList) ( "qpz".toList) = 4 / 7 := by
    unfold sequenceRatioVal
    rw [show matchesCount ( "pwzq".toList) ( "qpz".toList) = 2 from by decide,
      show ( "pwzq".toList).length + ( "qpz".toList).length = 7 from by decide]
    norm_num
  have htok : tokenSortRatioVal ( "pwzq".toList) ( "qpz".toList) = 1 / 4 := by
    unfold tokenSortRatioVal
    rw [show joinSp (sortToks (wordsOf ( "pwzq".toList))) = ( "pwzq".toList) from by decide,
      show joinSp (sortToks (wordsOf ( "qpz".toList))) = ( "qpz".toList) from by decide]
    unfold levRatioVal
    rw [show levDist ( "pwzq".toList) ( "qpz".toList) = 3 from by decide,
      show max ( "pwzq".toList).length ( "qpz".toList).length = 4 from by decide]
    norm_num
  have hwin : windowAlignRatioVal ( "pwzq".toList) ( "qpz".toList) = 1 / 3 := by
    unfold windowAlignRatioVal
    rw [if_neg (by decide : ¬ ( "pwzq".toList).length ≤ ( "qpz".toList).length)]
    rw [show windowsOf ( "qpz".toList).length ( "pwzq".toList) =
        [( "pwz".toList), ( "wzq".toList)] from by decide]
    simp only [List.map_cons, List.map_nil, List.foldl_cons, List.foldl_nil]
    unfold levRatioVal
    rw [show levDist ( "qpz".toList) ( "pwz".toList) = 2 from by decide,
      show levDist ( "qpz".toList) ( "wzq".toList) = 3 from by decide,
      show max ( "qpz".toList).length ( "pwz".toList).length = 3 from by decide,
      show max ( "qpz".toList).length ( "wzq".toList).length = 3 from by decide]
    rw [show (1 : ℚ) - (2 : ℕ) / (3 : ℕ) = 1 / 3 by push_cast; ring,
      show (1 : ℚ) - (3 : ℕ) / (3 : ℕ) = 0 by push_cast; ring]
    rw [if_neg (show ¬((3 : ℕ) = 0) by norm_num), if_neg (show ¬((3 : ℕ) = 0) by norm_num)]
    rw [max_eq_right (show (0 : ℚ) ≤ 1 / 3 by norm_num),
      max_eq_left (show (0 : ℚ) ≤ 1 / 3 by norm_num)]
  unfold are_strings_similar
  rw [if_neg (by decide : ¬ ( "pwzq".toList) = ( "qpz".toList))]
  rw [if_neg (by rw [hc1, hc2]; decide)]
  rw [hc1, hc2]
  unfold similarityScore
  rw [hseq, htok, hwin, hpen]
  rw [Prod.mk.injEq]
  constructor
  · rw [decide_eq_false_iff_not]
    norm_num
  · rw [sub_zero, max_eq_right (by norm_num)]
    norm_num

/-- Evaluation of the three metrics and the penalty at the reversed pair. -/
theorem asym_pair_eval_rev :
    are_strings_similar ( "qpz".toList) ( "pwzq".toList) (17 / 20) = (false, 73 / 252) := by
  have hc1 : (clean_string_extended ( "qpz".toList) none none).1 = ( "qpz".toList) := by
    decide
  have hc2 : (clean_string_extended ( "pwzq".toList) none none).1 = ( "pwzq".toList) := by
    decide
  have hpen : penality ( "qpz".toList) ( "pwzq".toList) = 0 := by
    unfold penality
    rw [show countChanged (clean_string_extended ( "qpz".toList) none none).2.1 = 0 from
        by decide,
      show countChanged (clean_string_extended ( "pwzq".toList) none none).2.1 = 0 from
        by decide]
    norm_num
  have hseq : sequenceRatioVal ( "qpz".toList) ( "pwzq".toList) = 2 / 7 := by
    unfold sequenceRatioVal
    rw [show matchesCount ( "qpz".toList) ( "pwzq".toList) = 1 from by decide,
      show ( "qpz".toList).length + ( "pwzq".toList).length = 7 from by decide]
    norm_num
  have htok : tokenSortRatioVal ( "qpz".toList) ( "pwzq".toList) = 1 / 4 := by
    unfold tokenSortRatioVal
    rw [show joinSp (sortToks (wordsOf ( "pwzq".toList))) = ( "pwzq".toList) from by decide,
      show joinSp (sortToks (wordsOf ( "qpz".toList))) = ( "qpz".toList) from by decide]
    unfold levRatioVal
    rw [show levDist ( "qpz".toList) ( "pwzq".toList) = 3 from by decide,
      show max ( "qpz".toList).length ( "pwzq".toList).length = 4 from by decide]
    norm_num
  have hwin : windowAlignRatioVal ( "qpz".toList) ( "pwzq".toList) = 1 / 3 := by
    unfold windowAlignRatioVal
    rw [if_pos (by decide : ( "qpz".toList).length ≤ ( "pwzq".toList).length)]
    rw [show windowsOf ( "qpz".toList).length ( "pwzq".toList) =
        [( "pwz".toList), ( "wzq".toList)] from by decide]
    simp only [List.map_cons, List.map_nil, List.foldl_cons, List.foldl_nil]
    unfold levRatioVal
    rw [show levDist ( "qpz".toList) ( "pwz".toList) = 2 from by decide,
      show levDist ( "qpz".toList) ( "wzq".toList) = 3 from by decide,
      show max ( "qpz".toList).length ( "pwz".toList).length = 3 from by decide,
      show max ( "qpz".toList).length ( "wzq".toList).length = 3 from by decide]
    rw [show (1 : ℚ) - (2 : ℕ) / (3 : ℕ) = 1 / 3 by push_cast; ring,
      show (1 : ℚ) - (3 : ℕ) / (3 : ℕ) = 0 by push_cast; ring]
    rw [if_neg (show ¬((3 : ℕ) = 0) by norm_num), if_neg (show ¬((3 : ℕ) = 0) by norm_num)]
    rw [max_eq_right (show (0 : ℚ) ≤ 1 / 3 by norm_num),
      max_eq_left (show (0 : ℚ) ≤ 1 / 3 by norm_num)]
  unfold are_strings_similar
  rw [if_neg (by decide : ¬ ( "qpz".toList) = ( "pwzq".toList))]
  rw [if_neg (by rw [hc1, hc2]; decide)]
  rw [hc1, hc2]
  unfold similarityScore
  rw [hseq, htok, hwin, hpen]
  rw [Prod.mk.injEq]
  constructor
  · rw [decide_eq_false_iff_not]
    norm_num
  · rw [sub_zero, max_eq_right (by norm_num)]
    norm_num

/-- Counterexample of claim C3: are_strings_similar is not symmetric; the
sequence ratio of the greedy longest-block matching depends on the argument
order, so the returned scores differ on this pair. -/
theorem similar_symmetry_cex :
    are_strings_similar ( "pwzq".toList) ( "qpz".toList) (17 / 20) ≠
      are_strings_similar ( "qpz".toList) ( "pwzq".toList) (17 / 20) := by
  rw [asym_pair_eval_fwd, asym_pair_eval_rev]
  intro h
  have h2 := congrArg Prod.snd h
  norm_num at h2

/-- Claim C3 as amended: the penalty, the token-sort ratio and the
best-window ratio are order-independent, and the result of
are_strings_similar is order-independent whenever the canonical forms of the
two inputs coincide; the sequence ratio, and hence the returned pair in
general, is not. -/
theorem similar_symmetry_amended (a b : List Char) (t : ℚ) :
    penality a b = penality b a ∧
    tokenSortRatioVal a b = tokenSortRatioVal b a ∧
    windowAlignRatioVal a b = windowAlignRatioVal b a ∧
    ((clean_string_extended a none none).1 = (clean_string_extended b none none).1 →
      are_strings_similar a b t = are_strings_similar b a t) := by
  refine ⟨penality_symm a b, tokenSortRatioVal_symm a b, windowAlignRatioVal_symm a b, ?_⟩
  intro hc
  by_cases hab : a = b
  · rw [hab]
  · unfold are_strings_similar
    set x := (clean_string_extended a none none).1 with hx
    set y := (clean_string_extended b none none).1 with hy
    clear_value x y
    rw [if_pos hc, if_pos hc.symm]
    rw [if_neg hab, if_neg (show ¬ b = a from fun h => hab h.symm)]
    rw [penality_symm]

/-- Witness of the amended claim C3 at a concrete canonically equal pair. -/
theorem similar_symmetry_amended_witness :
    are_strings_similar ( "Imagine".toList) ( "imagine".toList) (17 / 20) =
      are_strings_similar ( "imagine".toList) ( "Imagine".toList) (17 / 20) :=
  (similar_symmetry_amended ( "Imagine".toList) ( "imagine".toList) (17 / 20)).2.2.2
    (by decide)

set_option maxHeartbeats 4000000 in
/-- Claim C10: the match decision compares the unclamped score with the
threshold while the returned score is clamped at zero, so for a negative
threshold the call can report no match with a returned score above the
threshold. -/
theorem negative_threshold_mismatch :
    (are_strings_similar ( "(live) 1999 x.".toList) ( "(live) 2001 q,".toList)
      (-(1 / 20))).1 = false ∧
    (-(1 / 20) : ℚ) ≤
      (are_strings_similar ( "(live) 1999 x.".toList) ( "(live) 2001 q,".toList)
        (-(1 / 20))).2 := by
  have hc1 : (clean_string_extended ( "(live) 1999 x.".toList) none none).1 =
      ( "x".toList) := by decide
  have hc2 : (clean_string_extended ( "(live) 2001 q,".toList) none none).1 =
      ( "q".toList) := by decide
  have hpen : penality ( "(live) 1999 x.".toList) ( "(live) 2001 q,".toList) = 2 / 25 := by
    unfold penality
    rw [show countChanged
        (clean_string_extended ( "(live) 1999 x.".toList) none none).2.1 = 4 from by decide,
      show countChanged
        (clean_string_extended ( "(live) 2001 q,".toList) none none).2.1 = 4 from by decide]
    norm_num
  have hseq : sequenceRatioVal ( "x".toList) ( "q".toList) = 0 := by
    unfold sequenceRatioVal
    rw [show matchesCount ( "x".toList) ( "q".toList) = 0 from by decide,
      show ( "x".toList).length + ( "q".toList).length = 2 from by decide]
    norm_num
  have htok : tokenSortRatioVal ( "x".toList) ( "q".toList) = 0 := by
    unfold tokenSortRatioVal
    rw [show joinSp (sortToks (wordsOf ( "x".toList))) = ( "x".toList) from by decide,
      show joinSp (sortToks (wordsOf ( "q".toList))) = ( "q".toList) from by decide]
    unfold levRatioVal
    rw [show levDist ( "x".toList) ( "q".toList) = 1 from by decide,
      show max ( "x".toList).length ( "q".toList).length = 1 from by decide]
    norm_num
  have hwin : windowAlignRatioVal ( "x".toList) ( "q".toList) = 0 := by
    unfold windowAlignRatioVal
    rw [if_pos (by decide : ( "x".toList).length ≤ ( "q".toList).length)]
    rw [show windowsOf ( "x".toList).length ( "q".toList) = [( "q".toList)] from by decide]
    simp only [List.map_cons, List.map_nil, List.foldl_cons, List.foldl_nil]
    unfold levRatioVal
    rw [show levDist ( "x".toList) ( "q".toList) = 1 from by decide,
      show max ( "x".toList).length ( "q".toList).length = 1 from by decide]
    rw [if_neg (show ¬((1 : ℕ) = 0) by norm_num)]
    rw [show (1 : ℚ) - (1 : ℕ) / (1 : ℕ) = 0 by push_cast; ring]
    rw [max_eq_left (by norm_num)]
  unfold are_strings_similar
  rw [if_neg (by decide : ¬ ( "(live) 1999 x.".toList) = ( "(live) 2001 q,".toList))]
  rw [if_neg (by rw [hc1, hc2]; decide)]
  rw [hc1, hc2]
  unfold similarityScore
  rw [hseq, htok, hwin, hpen]
  constructor
  · show decide ((-(1 / 20) : ℚ) ≤ ((0 : ℚ) + 0 + 0) / 3 - 2 / 25) = false
    rw [decide_eq_false_iff_not]
    norm_num
  · show (-(1 / 20) : ℚ) ≤ max 0 (((0 : ℚ) + 0 + 0) / 3 - 2 / 25)
    rw [show ((0 : ℚ) + 0 + 0) / 3 - 2 / 25 = -(2 / 25) by ring,
      max_eq_left (by norm_num)]
    norm_num
